import Mathlib

/-!
Verification development for the biomaj-download engine.

This file gives a shallow embedding, in Lean 4, of the parts of the
biomaj-download source that the verified claims are about:

* the per-protocol downloader interface (`biomaj_download/download/interface.py`):
  file normalisation (`_append_file_to_download`), pattern matching (`match`),
  the copy-or-download decider (`download_or_copy`), the per-file download loop
  (`download`), the archive probe (`_download`) and the retry-policy parser and
  driver (`_set_retryer`, `is_true`, `return_last_value`);
* the FTP downloader (`biomaj_download/download/ftp.py`): `curl_download`;
* the direct HTTP downloader (`biomaj_download/download/direct.py`): `download`;
* the download service (`biomaj_download/downloadservice.py`): `list`,
  `download`, `callback_messages`, together with a model of the Redis
  key/value store they mutate;
* the download client (`biomaj_download/downloadclient.py`): one iteration of
  the remote polling loop of `wait_for_download`.

Python dictionaries that describe one remote file are embedded as the `RFile`
structure; keys whose presence/absence matters (`save_as`, `param`, `url`,
`root`, `error`, `download_time`) are `Option`-valued.  Mutation of those
dictionaries is embedded by value threading: every in-place update in the
source becomes an updated copy in the model, and the updated value is the one
appended to result lists, exactly as the aliased dictionary would be read
afterwards.  Network operations (curl transfers, FTP listings, archive
probes, clock reads) are oracles passed as function parameters; the events
they would cause are returned explicitly so that theorems can state that a
code path performs no network call.
-/

/-- One remote file entry (a Python dict in the source).  Fields that the
source tests for presence (`'save_as' in rfile` and similar) are `Option`s;
metadata fields that the relevant code paths read unconditionally
(`year`, `month`, `day`, `size` in `download_or_copy`) are plain values. -/
structure RFile where
  name : String
  root : Option String := none
  save_as : Option String := none
  url : Option String := none
  param : Option (List (String × String)) := none
  year : Int := 0
  month : Int := 0
  day : Int := 0
  size : Int := 0
  error : Option Bool := none
  download_time : Option Int := none
  deriving Repr, DecidableEq

/-- A sub-directory entry of a listing (only its name is read by `match`). -/
structure RDir where
  name : String
  deriving Repr, DecidableEq

/-!
## Redis store model

The service keeps session state in Redis (`downloadservice.py`).  Values are
either integers (counters, the `1` written as session marker) or strings (the
serialized file list); Redis `INCR` interprets the stored value as an integer.
Lists (`error:info`) are kept separately, as Redis does.
-/

/-- A Redis value: an integer (counter / marker) or a plain string. -/
inductive RVal where
  | rint (n : Int)
  | rstr (s : String)
  deriving Repr, DecidableEq

/-- The shared key/value store: string keys to optional values, plus the
Redis lists (`lpush`/`rpop`). -/
structure Store where
  kv : String → Option RVal
  lists : String → List String

def Store.get (st : Store) (k : String) : Option RVal := st.kv k

def Store.set (st : Store) (k : String) (v : RVal) : Store :=
  { st with kv := fun k2 => if k2 = k then some v else st.kv k2 }

def Store.del (st : Store) (k : String) : Store :=
  { st with kv := fun k2 => if k2 = k then none else st.kv k2 }

/-- Redis `INCR`: missing key counts as 0.  On a non-integer string Redis
raises an error; that case is unreachable in the modelled flows (counters are
only ever written by `INCR` or `SET` of an integer) and is embedded as a
no-op. -/
def Store.incr (st : Store) (k : String) : Store :=
  match st.kv k with
  | none => st.set k (RVal.rint 1)
  | some (RVal.rint n) => st.set k (RVal.rint (n + 1))
  | some (RVal.rstr s) =>
      match s.toInt? with
      | some n => st.set k (RVal.rint (n + 1))
      | none => st

/-- Redis `LPUSH`: prepend to the list stored at a key. -/
def Store.lpush (st : Store) (k : String) (v : String) : Store :=
  { st with lists := fun k2 => if k2 = k then v :: st.lists k2 else st.lists k2 }

/-- Truthiness, in the Python sense, of the result of `redis_client.get`
under `decode_responses=True`: a missing key gives `None` (falsy), an integer
prints as a non-empty string (truthy), a string is truthy iff non-empty. -/
def redisTruthy : Option RVal → Bool
  | none => false
  | some (RVal.rint _) => true
  | some (RVal.rstr s) => !s.isEmpty

/-- The integer value of a counter key (0 when absent), used to state the
progress/error-counter claims. -/
def counterVal (st : Store) (k : String) : Int :=
  match st.get k with
  | some (RVal.rint n) => n
  | some (RVal.rstr s) => (s.toInt?).getD 0
  | none => 0

/-- A key holds an integer or nothing (the invariant of counter keys). -/
def intOrAbsent (v : Option RVal) : Prop :=
  match v with
  | none => True
  | some (RVal.rint _) => True
  | some (RVal.rstr _) => False

instance (v : Option RVal) : Decidable (intOrAbsent v) := by
  unfold intOrAbsent
  match v with
  | none => exact inferInstanceAs (Decidable True)
  | some (RVal.rint _) => exact inferInstanceAs (Decidable True)
  | some (RVal.rstr _) => exact inferInstanceAs (Decidable False)

/-! Session key layout (`downloadservice.py`, section 4.6 of the spec). -/

def sessionKey (pfx bank session : String) : String :=
  pfx ++ ":" ++ bank ++ ":session:" ++ session

def progressKey (pfx bank session : String) : String :=
  sessionKey pfx bank session ++ ":progress"

def errorKey (pfx bank session : String) : String :=
  sessionKey pfx bank session ++ ":error"

def errorInfoKey (pfx bank session : String) : String :=
  sessionKey pfx bank session ++ ":error:info"

def filesKey (pfx bank session : String) : String :=
  sessionKey pfx bank session ++ ":files"

def cancelKey (pfx bank : String) : String :=
  pfx ++ ":" ++ bank ++ ":action:cancel"

/-- A store holding the integer 1 under one key and nothing else (used to
evaluate the theorems on concrete inputs). -/
def storeWith (k0 : String) : Store :=
  { kv := fun k => if k = k0 then some (RVal.rint 1) else none,
    lists := fun _ => [] }

/-!
## Claim C9: FTP listing date disambiguation

In the version of `ftp.py` under verification, `FTPDownload.list` delegates
line parsing (including the year of a `Mon DD HH:MM` date) to the external
`ftputil` listing parsers; the disambiguation algorithm itself is therefore
not in the repository source.  It is modelled from the spec below.
-/

/-- Modelled from the spec: the FTP listing date disambiguator of
section 4.1.1 (the year-guessing step performed while parsing a listing line
whose date lacks a year; in the source this step happens inside the external
`ftputil` parsers invoked by `FTPDownload.list`).  Spec wording:
1. Set year = current year.
2. If parsed month > current month, year = current year - 1.
3. If parsed month == current month AND parsed day > current day,
   year = current year - 1. -/
def ftpGuessYear (curY curM curD m d : Int) : Int :=
  let year := curY
  let year := if m > curM then curY - 1 else year
  let year := if m = curM ∧ d > curD then curY - 1 else year
  year

/-!
## Claim C10: the direct HTTP downloader transfers at most one file

`DirectHttpDownload.download` (`direct.py`).  The curl transfer and the two
clock reads around it are oracles indexed by the position of the file in the
list; each `curl.perform()` is recorded as one entry of `transfers`.
-/

/-- Result of `DirectHttpDownload.download`: the returned file list (which is
also the `files_to_download` instance variable), the URLs for which a curl
transfer was performed, and whether the call raised. -/
structure DirectDlResult where
  files : List RFile
  transfers : List String
  raised : Bool
  deriving Repr, DecidableEq

/-- The per-file loop of `DirectHttpDownload.download`.  `saveAs` threads the
`self.save_as` instance variable; `selfUrl` is `self.url`;
`startT`/`endT` are the two `time.mktime(datetime.now())` reads. -/
def directHttpLoop (killReceived : Bool) (selfUrl : String)
    (startT endT : Nat → Int) :
    List RFile → Option String → Nat → List RFile × List String × Bool
  | [], _, _ => ([], [], false)
  | rfile :: rest, saveAs, i =>
    if killReceived then
      -- 'Kill request received, exiting' is raised before any transfer
      (rfile :: rest, [], true)
    else
      -- if not self.save_as: self.save_as = rfile['name']
      -- else: rfile['save_as'] = self.save_as
      let sa := match saveAs with
        | none => rfile.name
        | some s => if s.isEmpty then rfile.name else s
      let rfile :=
        match saveAs with
        | none => rfile
        | some s => if s.isEmpty then rfile else { rfile with save_as := some s }
      -- if 'url' not in rfile: rfile['url'] = self.url
      let rfile :=
        match rfile.url with
        | none => { rfile with url := some selfUrl }
        | some _ => rfile
      let transferUrl := (rfile.url).getD selfUrl ++ (rfile.root).getD "" ++ "/" ++ rfile.name
      -- curl.perform(); download_time; rfile['name'] = self.save_as
      let rfile := { rfile with download_time := some (endT i - startT i), name := sa }
      let (fs, ts, r) := directHttpLoop killReceived selfUrl startT endT rest (some sa) (i + 1)
      (rfile :: fs, transferUrl :: ts, r)

/-- `DirectHttpDownload.download(local_dir)`: when more than one file is
queued the list is cleared (with an error log) before the loop runs. -/
def directHttpDownload (killReceived : Bool) (selfUrl : String)
    (startT endT : Nat → Int) (saveAs : Option String)
    (files_to_download : List RFile) : DirectDlResult :=
  let files := if files_to_download.length > 1 then [] else files_to_download
  let (fs, ts, r) := directHttpLoop killReceived selfUrl startT endT files saveAs 0
  { files := fs, transfers := ts, raised := r }

/-!
## Claims C1 and C2: the download service worker

`DownloadService.list` / `DownloadService.download` / `callback_messages`
(`downloadservice.py`).  Building the protocol handler and running its
`list`/`match` or `download` involves the network; the outcome of that block
is an oracle `Except String (List RFile)` (`.error e` embeds the Python
exception with message `e`).  Each invocation of the block is recorded as one
`SvcEvent`, so that a theorem can state that a code path makes no network
call.
-/

inductive SvcEvent where
  | netList
  | netDownload
  deriving Repr, DecidableEq

/-- Serialization of the matched file list written under the `files` key
(`file_list_pb2.SerializeToString()` in `_list`).  The exact protobuf wire
format is irrelevant to every verified claim; only the fact that a string is
written matters, so a simple injective-enough encoding stands in for it. -/
def serializeFiles (files : List RFile) : String :=
  String.intercalate ";" (files.map (fun f => f.name))

/-- `DownloadService.list` (lines 345-361): session gate, then `_list` (which
catches handler exceptions itself, setting the `error` key to 1 and pushing
the message), then unconditional write of the `files` key and `INCR` of
`progress`. -/
def svcList (pfx bank session : String)
    (handler : Except String (List RFile)) (st : Store) :
    Store × List SvcEvent :=
  let skey := sessionKey pfx bank session
  if ¬ redisTruthy (st.get skey) then
    -- session expired: skip download (debug log only)
    (st, [])
  else
    -- _list: try list()+match() ; except: SET error 1, LPUSH error:info
    let (st, files) :=
      match handler with
      | Except.ok files => (st, files)
      | Except.error e =>
          (((st.set (errorKey pfx bank session) (RVal.rint 1)).lpush
              (errorInfoKey pfx bank session) e), [])
    let st := st.set (filesKey pfx bank session) (RVal.rstr (serializeFiles files))
    let st := st.incr (progressKey pfx bank session)
    (st, [SvcEvent.netList])

/-- `DownloadService.download` (lines 375-406): session gate; on handler
exception re-read the session and, if still alive, `INCR` the `error` counter
and `LPUSH` the message; in all cases re-read the session and, if alive,
`INCR` `progress`.  Returns `none` when the job was dropped (stale session),
mirroring the bare `return`. -/
def svcDownload (pfx bank session : String)
    (handler : Except String (List RFile)) (st : Store) :
    Store × List SvcEvent × Option (List RFile) :=
  let skey := sessionKey pfx bank session
  if ¬ redisTruthy (st.get skey) then
    (st, [], none)
  else
    let (st, res) :=
      match handler with
      | Except.ok files => (st, files)
      | Except.error e =>
          -- except branch: if session still present, record the error
          let st :=
            if redisTruthy (st.get skey) then
              (st.incr (errorKey pfx bank session)).lpush
                (errorInfoKey pfx bank session) e
            else st
          (st, [])
    -- progress is incremented once, success or failure, if session present
    let st :=
      if redisTruthy (st.get skey) then st.incr (progressKey pfx bank session)
      else st
    (st, [SvcEvent.netDownload], some res)

/-- A decoded queue message, as dispatched by `callback_messages`.  The
handler outcome oracle travels with the operation.  `opOther` is an unknown
operation type (logged and skipped); decoding failures are modelled by
passing `none` to `callbackMessages`. -/
inductive Operation where
  | opList (pfx bank session : String) (pats : List String)
      (handler : Except String (List RFile))
  | opDownload (pfx bank session : String)
      (handler : Except String (List RFile))
  | opOther

/-- `DownloadService.callback_messages` (lines 434-470): decode, dispatch on
the operation type (a LIST operation with no match pattern is only logged),
catch every exception, and acknowledge the delivery unconditionally.  The
returned `Bool` is whether `basic_ack` was called. -/
def callbackMessages (op : Option Operation) (st : Store) :
    Store × List SvcEvent × Bool :=
  match op with
  | none => (st, [], true)          -- decode error: logged, still acked
  | some (Operation.opList pfx bank session pats handler) =>
      if pats.length = 0 then (st, [], true)
      else
        let (st, evs) := svcList pfx bank session handler st
        (st, evs, true)
  | some (Operation.opDownload pfx bank session handler) =>
      let (st, evs, _) := svcDownload pfx bank session handler st
      (st, evs, true)
  | some Operation.opOther => (st, [], true)

/-!
## Claim C5: the archive probe

`DownloadInterface._download` (interface.py lines 483-502) and the probe step
of `FTPDownload.curl_download` (ftp.py lines 228-235).  `Utils.archive_check`
and `os.path.exists` are oracles; the probe, the deletion and each transfer
attempt are recorded as events.
-/

inductive CurlEv where
  | attempt (n : Nat)
  | probe (n : Nat)
  | delFile (n : Nat)
  deriving Repr, DecidableEq

/-- `DownloadInterface._download`: starts from `error = False` (the transfer
itself is done by the subclass before this implementation runs); when
`skip_check_uncompress` is false the file is probed as an archive, and on a
failed probe the file is removed (if present) and the error flag raised.
Returns (error flag, probe performed?, file deleted?). -/
def iface_download_check (skip_check_uncompress : Bool)
    (archiveOk : Bool) (fileExists : Bool) : Bool × Bool × Bool :=
  let error := false
  if !skip_check_uncompress then
    if !archiveOk then
      (true, true, fileExists)
    else
      (error, true, false)
  else
    (error, false, false)

/-- One iteration of the `while` body of `FTPDownload.curl_download`, for try
number `n`.  `transferOk n` is the outcome of `curl.perform()` plus the
errcode test: `some true` = response code 226/200, `some false` = other code,
`none` = exception while reading the code (the error flag is then left at its
value on loop entry, which is `True`).  Returns the error flag after the
iteration and the events. -/
def curlTry (skip_check_uncompress : Bool) (transferOk : Nat → Option Bool)
    (archiveOk : Nat → Bool) (fileExists : Nat → Bool) (n : Nat) :
    Bool × List CurlEv :=
  let error :=
    match transferOk n with
    | some ok => !ok
    | none => true
  let evs := [CurlEv.attempt n]
  if !error && !skip_check_uncompress then
    if !archiveOk n then
      (true, evs ++ [CurlEv.probe n] ++
        (if fileExists n then [CurlEv.delFile n] else []))
    else
      (error, evs ++ [CurlEv.probe n])
  else
    (error, evs)

/-- `FTPDownload.curl_download`: `error = True; nbtry = 1;
while error and nbtry < 3: ...` — at most two tries. -/
def curl_download (skip_check_uncompress : Bool) (transferOk : Nat → Option Bool)
    (archiveOk : Nat → Bool) (fileExists : Nat → Bool) : Bool × List CurlEv :=
  let (e1, evs1) := curlTry skip_check_uncompress transferOk archiveOk fileExists 1
  if e1 then
    let (e2, evs2) := curlTry skip_check_uncompress transferOk archiveOk fileExists 2
    (e2, evs1 ++ evs2)
  else
    (e1, evs1)

/-!
## Claim C8: the client polling loop checks the cancel flag first

One iteration of the `while not over` loop of `DownloadClient.wait_for_download`
in remote mode (`downloadclient.py` lines 189-245).  `download_status` is an
oracle returning `(progress, error)`; submissions (`ask_download`) and status
polls are recorded as events.
-/

inductive ClientEv where
  | submitJob
  | pollStatus
  | fetchErrors
  deriving Repr, DecidableEq

/-- Outcome of one loop iteration. -/
inductive IterOutcome where
  | canceled (st : Store)
  | running (st : Store) (pool : List Nat) (nbSubmitted : Nat) (over : Bool)
      (downloadError : Bool)

/-- Pop `max_submit` operations off the pool, submitting each
(`for i in range(max_submit): if self.download_pool: ... pop ... ask_download`).
`max_submit` may be negative, in which case the range is empty.
Python `list.pop()` removes the last element. -/
def submitFromPool : Int → List Nat → Nat → List Nat × Nat × List ClientEv
  | maxSubmit, pool, nbSubmitted =>
    if maxSubmit ≤ 0 then (pool, nbSubmitted, [])
    else
      match pool.getLast? with
      | none => (pool, nbSubmitted, [])
      | some _ =>
          let pool := pool.dropLast
          let (p, n, evs) := submitFromPool (maxSubmit - 1) pool (nbSubmitted + 1)
          (p, n, ClientEv.submitJob :: evs)
  termination_by maxSubmit _ _ => maxSubmit.toNat

/-- One iteration of the remote polling loop of
`DownloadClient.wait_for_download`: first the cancel-flag check (delete the
flag and raise), then one `download_status` poll, then — under rate limiting —
submission of up to `rI` pending jobs, then the completion test, then error
reporting.  `redisConfigured` is whether `self.redis_client` is set. -/
def waitIteration (redisConfigured : Bool) (pfx bank : String)
    (rateLimiting : Nat) (nbFilesToDownload : Nat)
    (status : Nat × Nat) (st : Store) (pool : List Nat) (nbSubmitted : Nat)
    (downloadError : Bool) : IterOutcome × List ClientEv :=
  let ck := cancelKey pfx bank
  if redisConfigured ∧ redisTruthy (st.get ck) then
    -- 'Cancel requested, stopping update': consume the flag, raise
    (IterOutcome.canceled (st.del ck), [])
  else
    let (progress, error) := status
    let evs := [ClientEv.pollStatus]
    let (pool, nbSubmitted, evs) :=
      if rateLimiting > 0 ∧ pool ≠ [] then
        let maxSubmit : Int :=
          if nbSubmitted ≠ 0 then
            (rateLimiting : Int) - ((nbSubmitted : Int) - (progress : Int))
          else (rateLimiting : Int)
        let (p, n, evs2) := submitFromPool maxSubmit pool nbSubmitted
        (p, n, evs ++ evs2)
      else (pool, nbSubmitted, evs)
    let over := progress ≥ nbFilesToDownload
    let (downloadError, evs) :=
      if error > 0 then (true, evs ++ [ClientEv.fetchErrors])
      else (downloadError, evs)
    (IterOutcome.running st pool nbSubmitted over downloadError, evs)

/-!
## Claim C3: the per-file download loop fails fast

`DownloadInterface.download` (interface.py lines 511-562).  The retryer-
wrapped transfer of the file at position `i` of the list is the oracle
`retryResult i` (the error flag returned by the retry driver after the retry
policy is exhausted); `startT i` / `endT i` are the two
`time.mktime(datetime.now())` reads around it.  Directory creation and the
path arithmetic (`file_dir`, `file_path`) touch only the filesystem and are
not observable by any claim, so they are not carried in the state.  The
returned triple is (`files_to_download` after the call, list of positions for
which a transfer was attempted, whether the call raised).
-/

def download_loop (kill_received : Bool) (retryResult : Nat → Bool)
    (startT endT : Nat → Int) :
    List RFile → Nat → List RFile × List Nat × Bool
  | [], _ => ([], [], false)
  | rfile :: rest, i =>
    if kill_received then
      -- 'Kill request received, exiting'
      (rfile :: rest, [], true)
    else
      let error := retryResult i
      if error then
        -- rfile['download_time'] = 0; rfile['error'] = True; raise
        ({ rfile with download_time := some 0, error := some true } :: rest,
          [i], true)
      else
        let rfile := { rfile with download_time := some (endT i - startT i) }
        let (fs, evs, r) :=
          download_loop kill_received retryResult startT endT rest (i + 1)
        (rfile :: fs, i :: evs, r)

/-- `DownloadInterface.download(local_dir)`: run the loop over
`files_to_download` from position 0. -/
def iface_download (kill_received : Bool) (retryResult : Nat → Bool)
    (startT endT : Nat → Int) (files_to_download : List RFile) :
    List RFile × List Nat × Bool :=
  download_loop kill_received retryResult startT endT files_to_download 0

/-!
## Claim C4: the retry policy — safe-evaluator parse and retry driver

`DownloadInterface._set_retryer` / `is_true` / `return_last_value`
(interface.py lines 122-139 and 249-312).  The source parses the
`stop_condition` and `wait_policy` strings with `simple_eval`, handing it a
whitelist of functions (`ALL_STOP_CONDITIONS` / `ALL_WAIT_POLICIES`), names
(`ALL_STOP_NAMES` / `ALL_WAIT_NAMES`) and operators (`ALL_STOP_OPERATORS` /
`ALL_WAIT_OPERATORS`).  The embedding works on the abstract syntax tree that
`simple_eval` walks: literals, names, calls and binary operators; every node
kind that the whitelists do not cover evaluates to an error, which
`_set_retryer` turns into the `ValueError` ("Error while parsing ...") that
the spec's taxonomy calls ConfigError.  Argument validation follows the
grammar of spec section 4.2 (the two-phase isinstance / trial-call check of
the source); tenacity's keyword defaults would let a few extra arities
through in Python, which can only affect expressions built entirely from
whitelisted constructs and is irrelevant to the verified claim.
`stop_when_event_set` is in the whitelist, but no expression can evaluate to
a `threading.Event`, so the trial call in `_set_retryer` always fails for it.
-/

inductive SEOp where
  | bitOr
  | bitAnd
  | add
  | otherOp (desc : String)
  deriving Repr, DecidableEq

inductive SEExpr where
  | num (n : Int)
  | strLit (s : String)
  | name (s : String)
  | call (fn : String) (args : List SEExpr)
  | binop (op : SEOp) (l r : SEExpr)
  deriving Repr

/-- Stop conditions (`tenacity.stop`), as built by the whitelisted
constructors. -/
inductive StopCond where
  | stop_never
  | stop_after_attempt (n : Int)
  | stop_after_delay (t : Int)
  | stop_any (ls : List StopCond)
  | stop_all (ls : List StopCond)
  deriving Repr

/-- Wait policies (`tenacity.wait`), as built by the whitelisted
constructors. -/
inductive WaitPol where
  | wait_none
  | wait_fixed (t : Int)
  | wait_random (lo hi : Int)
  | wait_incrementing (start inc : Int)
  | wait_exponential (mult mn mx : Int)
  | wait_random_exponential (mult mx : Int)
  | wait_combine (ls : List WaitPol)
  | wait_chain (ls : List WaitPol)
  deriving Repr

/-- A value produced while evaluating a policy expression. -/
inductive SEVal where
  | vint (n : Int)
  | vstr (s : String)
  | vstop (c : StopCond)
  | vwait (w : WaitPol)
  deriving Repr

def asStops : List SEVal → Except String (List StopCond)
  | [] => Except.ok []
  | SEVal.vstop c :: vs => do
      let cs ← asStops vs
      Except.ok (c :: cs)
  | _ :: _ => Except.error "argument is not a stop condition"

def asWaits : List SEVal → Except String (List WaitPol)
  | [] => Except.ok []
  | SEVal.vwait w :: vs => do
      let ws ← asWaits vs
      Except.ok (w :: ws)
  | _ :: _ => Except.error "argument is not a wait policy"

/-- Application of one whitelisted stop-condition constructor
(`ALL_STOP_CONDITIONS`); unknown functions are simple-eval
FunctionNotDefined errors. -/
def applyStopFn (fn : String) (vs : List SEVal) : Except String SEVal :=
  if fn = "stop_after_attempt" then
    match vs with
    | [SEVal.vint n] => Except.ok (SEVal.vstop (StopCond.stop_after_attempt n))
    | _ => Except.error "stop_after_attempt does not yield a stop condition"
  else if fn = "stop_after_delay" then
    match vs with
    | [SEVal.vint t] => Except.ok (SEVal.vstop (StopCond.stop_after_delay t))
    | _ => Except.error "stop_after_delay does not yield a stop condition"
  else if fn = "stop_any" then do
    let cs ← asStops vs
    Except.ok (SEVal.vstop (StopCond.stop_any cs))
  else if fn = "stop_all" then do
    let cs ← asStops vs
    Except.ok (SEVal.vstop (StopCond.stop_all cs))
  else if fn = "stop_when_event_set" then
    -- whitelisted, but the evaluator cannot produce a threading.Event, so
    -- the validation call in _set_retryer always fails on the result
    Except.error "stop_when_event_set does not yield a stop condition"
  else
    Except.error ("function not defined: " ++ fn)

/-- Application of one whitelisted wait-policy constructor
(`ALL_WAIT_POLICIES`). -/
def applyWaitFn (fn : String) (vs : List SEVal) : Except String SEVal :=
  if fn = "wait_fixed" then
    match vs with
    | [SEVal.vint t] => Except.ok (SEVal.vwait (WaitPol.wait_fixed t))
    | _ => Except.error "wait_fixed does not yield a wait policy"
  else if fn = "wait_random" then
    match vs with
    | [SEVal.vint lo, SEVal.vint hi] =>
        Except.ok (SEVal.vwait (WaitPol.wait_random lo hi))
    | _ => Except.error "wait_random does not yield a wait policy"
  else if fn = "wait_incrementing" then
    match vs with
    | [SEVal.vint s, SEVal.vint i] =>
        Except.ok (SEVal.vwait (WaitPol.wait_incrementing s i))
    | _ => Except.error "wait_incrementing does not yield a wait policy"
  else if fn = "wait_exponential" then
    match vs with
    | [SEVal.vint m, SEVal.vint mn, SEVal.vint mx] =>
        Except.ok (SEVal.vwait (WaitPol.wait_exponential m mn mx))
    | _ => Except.error "wait_exponential does not yield a wait policy"
  else if fn = "wait_random_exponential" then
    match vs with
    | [SEVal.vint m, SEVal.vint mx] =>
        Except.ok (SEVal.vwait (WaitPol.wait_random_exponential m mx))
    | _ => Except.error "wait_random_exponential does not yield a wait policy"
  else if fn = "wait_combine" then do
    let ws ← asWaits vs
    Except.ok (SEVal.vwait (WaitPol.wait_combine ws))
  else if fn = "wait_chain" then do
    let ws ← asWaits vs
    Except.ok (SEVal.vwait (WaitPol.wait_chain ws))
  else
    Except.error ("function not defined: " ++ fn)

mutual

/-- Evaluation of a stop-condition expression under the stop whitelists
(functions `ALL_STOP_CONDITIONS`, names `ALL_STOP_NAMES`, operators
`ALL_STOP_OPERATORS`, i.e. BitOr and BitAnd only). -/
def evalStopExpr : SEExpr → Except String SEVal
  | SEExpr.num n => Except.ok (SEVal.vint n)
  | SEExpr.strLit s => Except.ok (SEVal.vstr s)
  | SEExpr.name s =>
      if s = "stop_never" then Except.ok (SEVal.vstop StopCond.stop_never)
      else Except.error ("name not defined: " ++ s)
  | SEExpr.call fn args => do
      let vs ← evalStopArgs args
      applyStopFn fn vs
  | SEExpr.binop op l r => do
      let lv ← evalStopExpr l
      let rv ← evalStopExpr r
      match op with
      | SEOp.bitOr =>
          match lv, rv with
          | SEVal.vstop a, SEVal.vstop b =>
              Except.ok (SEVal.vstop (StopCond.stop_any [a, b]))
          | _, _ => Except.error "operator | applied to non stop conditions"
      | SEOp.bitAnd =>
          match lv, rv with
          | SEVal.vstop a, SEVal.vstop b =>
              Except.ok (SEVal.vstop (StopCond.stop_all [a, b]))
          | _, _ => Except.error "operator & applied to non stop conditions"
      | _ => Except.error "operator not defined"

def evalStopArgs : List SEExpr → Except String (List SEVal)
  | [] => Except.ok []
  | e :: es => do
      let v ← evalStopExpr e
      let vs ← evalStopArgs es
      Except.ok (v :: vs)

end

mutual

/-- Evaluation of a wait-policy expression under the wait whitelists
(functions `ALL_WAIT_POLICIES`, names `ALL_WAIT_NAMES`, operators
`ALL_WAIT_OPERATORS`, i.e. Add only). -/
def evalWaitExpr : SEExpr → Except String SEVal
  | SEExpr.num n => Except.ok (SEVal.vint n)
  | SEExpr.strLit s => Except.ok (SEVal.vstr s)
  | SEExpr.name s =>
      if s = "wait_none" then Except.ok (SEVal.vwait WaitPol.wait_none)
      else Except.error ("name not defined: " ++ s)
  | SEExpr.call fn args => do
      let vs ← evalWaitArgs args
      applyWaitFn fn vs
  | SEExpr.binop op l r => do
      let lv ← evalWaitExpr l
      let rv ← evalWaitExpr r
      match op with
      | SEOp.add =>
          match lv, rv with
          | SEVal.vwait a, SEVal.vwait b =>
              Except.ok (SEVal.vwait (WaitPol.wait_combine [a, b]))
          | _, _ => Except.error "operator + applied to non wait policies"
      | _ => Except.error "operator not defined"

def evalWaitArgs : List SEExpr → Except String (List SEVal)
  | [] => Except.ok []
  | e :: es => do
      let v ← evalWaitExpr e
      let vs ← evalWaitArgs es
      Except.ok (v :: vs)

end

mutual

/-- An expression contains a construct outside the stop whitelist (an unknown
function or name, or an operator other than BitOr/BitAnd). -/
def stopExprBad : SEExpr → Bool
  | SEExpr.num _ => false
  | SEExpr.strLit _ => false
  | SEExpr.name s => s ≠ "stop_never"
  | SEExpr.call fn args =>
      !(["stop_when_event_set", "stop_after_attempt", "stop_after_delay",
         "stop_any", "stop_all"].contains fn) || stopArgsBad args
  | SEExpr.binop op l r =>
      !(op = SEOp.bitOr || op = SEOp.bitAnd) || stopExprBad l || stopExprBad r

def stopArgsBad : List SEExpr → Bool
  | [] => false
  | e :: es => stopExprBad e || stopArgsBad es

end

mutual

/-- An expression contains a construct outside the wait whitelist. -/
def waitExprBad : SEExpr → Bool
  | SEExpr.num _ => false
  | SEExpr.strLit _ => false
  | SEExpr.name s => s ≠ "wait_none"
  | SEExpr.call fn args =>
      !(["wait_fixed", "wait_random", "wait_incrementing", "wait_exponential",
         "wait_random_exponential", "wait_combine", "wait_chain"].contains fn)
        || waitArgsBad args
  | SEExpr.binop op l r =>
      !(op = SEOp.add) || waitExprBad l || waitExprBad r

def waitArgsBad : List SEExpr → Bool
  | [] => false
  | e :: es => waitExprBad e || waitArgsBad es

end

/-- `_set_retryer(stop_condition, wait_policy)`: each input is either a
prebuilt policy object (used directly after the isinstance check) or a string
(evaluated under the whitelists; a result that is not of the right class, or
any evaluator error, raises the ValueError the spec calls ConfigError).  On
success the `tenacity.Retrying` driver is installed with the parsed pair; on
error the exception propagates before the `self.retryer` assignment, so no
retryer is installed. -/
def set_retryer (stop_condition : Sum StopCond SEExpr)
    (wait_policy : Sum WaitPol SEExpr) : Except String (StopCond × WaitPol) := do
  let stop_cond ←
    match stop_condition with
    | Sum.inl c => Except.ok c
    | Sum.inr e =>
        match evalStopExpr e with
        | Except.ok (SEVal.vstop c) => Except.ok c
        | Except.ok _ =>
            Except.error "Error while parsing stop condition: not a stop condition"
        | Except.error msg =>
            Except.error ("Error while parsing stop condition: " ++ msg)
  let wait_pol ←
    match wait_policy with
    | Sum.inl w => Except.ok w
    | Sum.inr e =>
        match evalWaitExpr e with
        | Except.ok (SEVal.vwait w) => Except.ok w
        | Except.ok _ =>
            Except.error "Error while parsing wait policy: not a wait policy"
        | Except.error msg =>
            Except.error ("Error while parsing wait policy: " ++ msg)
  Except.ok (stop_cond, wait_pol)

/-- `DownloadInterface.is_true`: retry while the result of `_download` is
True. -/
def is_true (download_error : Bool) : Bool := download_error == true

/-- The state a stop condition inspects (`tenacity.RetryCallState`):
the 1-based attempt number and the seconds elapsed since the first attempt
(embedded as an integer clock). -/
structure RetryState where
  attempt_number : Nat
  seconds_since_start : Int
  deriving Repr, DecidableEq

/-- The retry driver installed by `_set_retryer`:
`tenacity.Retrying(stop=.., wait=.., retry=retry_if_result(is_true),
retry_error_callback=return_last_value, reraise=True)`.  `f n` is the error
flag returned by attempt `n` of `_download`; `elapsedAt n` the elapsed time
when attempt `n` finishes.  The driver returns `(n, r)` where `n` is the
final attempt and `r` its result: it stops as soon as a result is not True
(`is_true` fails, no retry) or, after a retryable result, when the stop
condition fires — `return_last_value` then returns the last attempt's result.
`fuel` bounds the unrolling (the loop itself need not terminate, e.g. under
`stop_never`); `none` means the driver is still running after `fuel`
attempts. -/
def retrying (stop : RetryState → Bool) (elapsedAt : Nat → Int)
    (f : Nat → Bool) : Nat → Nat → Option (Nat × Bool)
  | 0, _ => none
  | fuel + 1, n =>
    let r := f n
    if !(is_true r) then some (n, r)
    else if stop ⟨n, elapsedAt n⟩ then some (n, r)
    else retrying stop elapsedAt f fuel (n + 1)

/-!
## File normalisation, claims C6 and C7

`DownloadInterface._append_file_to_download` (interface.py lines 318-334) and
`set_files_to_download`.
-/

/-- Worker for the slash collapse of `_append_file_to_download`, tracking
whether the previously kept character was a slash (so that every further
slash of the same run is dropped). -/
def sqAux : Bool → List Char → List Char
  | _, [] => []
  | prevSlash, c :: rest =>
      if c = '/' then
        if prevSlash then sqAux true rest
        else c :: sqAux true rest
      else c :: sqAux false rest

/-- The character-list worker behind the `re.sub('//+', '/', name)` of
`_append_file_to_download`: every maximal run of slashes is collapsed to one
slash (a single slash is left alone, so this is exactly the substitution of
runs of two or more). -/
def squeezeChars (l : List Char) : List Char := sqAux false l

/-- `re.sub('//+', '/', name)`. -/
def squeezeSlashes (s : String) : String := String.mk (squeezeChars s.data)

/-- Python truthiness of the downloader's `self.param` (a dict or None). -/
def paramTruthy : Option (List (String × String)) → Bool
  | none => false
  | some l => !l.isEmpty

/-- `_append_file_to_download(rfile)`, as the value transformation applied to
the dict before it is appended: fill `save_as` with the (pre-collapse) name
when missing or None, fill `param` from `self.param` when that is truthy and
the file has no truthy `param`, then collapse duplicate slashes in `name`. -/
def _append_file_to_download (selfParam : Option (List (String × String)))
    (rfile : RFile) : RFile :=
  let rfile :=
    match rfile.save_as with
    | none => { rfile with save_as := some rfile.name }
    | some _ => rfile
  let rfile :=
    if paramTruthy selfParam && !(paramTruthy rfile.param) then
      { rfile with param := selfParam }
    else rfile
  { rfile with name := squeezeSlashes rfile.name }

/-- `set_files_to_download(files)`: reset the list and append each file
through `_append_file_to_download`. -/
def set_files_to_download (selfParam : Option (List (String × String)))
    (files : List RFile) : List RFile :=
  files.map (_append_file_to_download selfParam)

/-!
## Claim C6: the copy-or-download decider

`DownloadInterface.download_or_copy` (interface.py lines 421-481).
`os.path.exists` is the oracle `existsFn`.  Python's `set(...)` of tuples is
embedded as `dedup` of the mapped list (only membership and the deduplicated
elements matter; the set's iteration order is implementation-defined in
Python, and the subsequent sort by name makes the order canonical whenever
the names involved are distinct).  Python's stable `list.sort(key=name)` is
`List.mergeSort` under the name order.
-/

/-- The comparison tuple `(name, year, month, day, size)`. -/
def fileTup (f : RFile) : String × Int × Int × Int × Int :=
  (f.name, f.year, f.month, f.day, f.size)

/-- Python compares strings lexicographically by code point; this is that
comparison (less-or-equal) on the character list.  (It is the same order as
the library's `String` order, but written so that it reduces on concrete
inputs, which the library's byte-iterator comparison does not.) -/
def charsLe : List Char → List Char → Bool
  | [], _ => true
  | _ :: _, [] => false
  | c :: cs, d :: ds =>
    if c.toNat < d.toNat then true
    else if d.toNat < c.toNat then false
    else charsLe cs ds

/-- Python string less-or-equal. -/
def pyStrLe (a b : String) : Bool := charsLe a.data b.data

/-- Stable insertion of one element: it goes in front of the first element
it compares less-or-equal to, so an element inserted later (i.e. one that
came earlier in the input) stays before equal elements. -/
def insertLe {α : Type} (le : α → α → Bool) (x : α) : List α → List α
  | [] => [x]
  | y :: ys => if le x y then x :: y :: ys else y :: insertLe le x ys

/-- Stable sort by insertion.  Python's `list.sort` is stable, and every
stable sort under the same (total) comparison produces the same list, so
this is the output of the source's `sort(key=lambda x: ...)` calls. -/
def pySort {α : Type} (le : α → α → Bool) : List α → List α
  | [] => []
  | x :: xs => insertLe le x (pySort le xs)

def nameLeB (a b : RFile) : Bool := pyStrLe a.name b.name

def tupLeB (a b : String × Int × Int × Int × Int) : Bool := pyStrLe a.1 b.1

/-- `fileName = dfile['name'][1:] if it starts with '/' else dfile['name']`. -/
def stripLeadingSlash (s : String) : String :=
  if s.startsWith "/" then s.drop 1 else s

/-- `os.path.join(root_dir, fileName)` for the shapes that occur here: an
absolute second component wins, otherwise the components are joined with a
single separator. -/
def osPathJoin (root f : String) : String :=
  if f.startsWith "/" then f
  else if root.isEmpty then f
  else if root.endsWith "/" then root ++ f
  else root ++ "/" ++ f

/-- The dispatch loop of `download_or_copy` over the sorted
`files_to_download`, with `new_or_modified_files` as the not-yet-consumed
tail (the source's `index` pointer).  A file whose name equals the tuple at
the pointer goes back to the download list and advances the pointer;
otherwise the file goes to `files_to_copy` (with `root` set to `root_dir`)
when `check_exists` is false or the local file exists, and back to the
download list when the existence check fails.  The source's separate
"copy everything" loop for an empty `new_or_modified_files` is this same
function at `noms = []`. -/
def docLoop (existsFn : String → Bool) (check_exists : Bool)
    (root_dir : String) :
    List RFile → List (String × Int × Int × Int × Int) →
    List RFile × List RFile
  | [], _ => ([], [])
  | dfile :: rest, noms =>
    let copyBranch : List RFile × List RFile :=
      let fileName := stripLeadingSlash dfile.name
      if !check_exists || existsFn (osPathJoin root_dir fileName) then
        let (dl, cp) := docLoop existsFn check_exists root_dir rest noms
        (dl, { dfile with root := some root_dir } :: cp)
      else
        let (dl, cp) := docLoop existsFn check_exists root_dir rest noms
        (dfile :: dl, cp)
    match noms with
    | nm :: noms2 =>
        if dfile.name = nm.1 then
          let (dl, cp) := docLoop existsFn check_exists root_dir rest noms2
          (dfile :: dl, cp)
        else copyBranch
    | [] => copyBranch

/-- `download_or_copy(available_files, root_dir, check_exists)`: returns the
new `(files_to_download, files_to_copy)` pair.  An empty `available_files`
forces the download of everything (early return).  Otherwise both lists are
sorted by name, the set difference of the comparison tuples gives
`new_or_modified_files` (sorted by name), the loop splits the files, and the
remaining downloads are re-set through `set_files_to_download`. -/
def download_or_copy (selfParam : Option (List (String × String)))
    (existsFn : String → Bool) (available_files : List RFile)
    (root_dir : String) (check_exists : Bool)
    (files_to_download : List RFile) : List RFile × List RFile :=
  if available_files.isEmpty then (files_to_download, [])
  else
    let avail := pySort nameLeB available_files
    let dl := pySort nameLeB files_to_download
    let test1_tuples := (dl.map fileTup).dedup
    let test2_tuples := (avail.map fileTup).dedup
    let new_or_modified_files :=
      pySort tupLeB (test1_tuples.filter (fun t => !(test2_tuples.contains t)))
    let (newFiles, copies) :=
      docLoop existsFn check_exists root_dir dl new_or_modified_files
    (set_files_to_download selfParam newFiles, copies)

/-!
## Claim C7: the pattern matcher

`DownloadInterface.match` (interface.py lines 344-410).  `re.match` is the
oracle `rm pattern string`; `self.list` is the oracle `listo directory`
(one fresh listing per visited subdirectory — the source builds new dicts on
every `list()` call, so recursive listings are independent values).
`matchStep` processes one pattern, threading the (value-embedded) top-level
`file_list` and the accumulated `files_to_download`; its `Bool` result
records the early `return` taken by the `pattern == '**_/_*'` branch (written
here with underscores to keep the comment well-formed), which in the source
exits `match` before the remaining patterns and before the zero-match check.
The inner `pattern == '**_/_*'` test of the subdirectory loop (lines 384-392)
is unreachable — the branch above it returns first — and is not modelled.
`fuel` bounds the recursion depth; the source always terminates because each
recursive call drops one `/`-separated segment, and every theorem below
quantifies over the fuel.  `none` means the fuel ran out.
-/

/-- Python's `pattern.split('/')` over the character list (the library's
`String.splitOn` does not reduce definitionally). -/
def splitSlashAux : List Char → List Char → List String
  | [], acc => [String.mk acc.reverse]
  | c :: rest, acc =>
      if c = '/' then String.mk acc.reverse :: splitSlashAux rest []
      else splitSlashAux rest (c :: acc)

/-- `pattern.split('/')`. -/
def pySplitSlash (s : String) : List String := splitSlashAux s.data []

/-- The subdirectory loop of `match`, abstracted over the recursive call
(`recur` is `match` itself at the next recursion depth): for each directory
whose name matches the first pattern segment, list it and recurse on the
joined remaining segments (`submatch=True`: the recursive call's `file_list`
is the fresh listing, and its mutations are visible to nobody else, so only
the `files_to_download` accumulator is kept). -/
def matchDirsAux (listo : String → List RFile × List RDir)
    (rm : String → String → Bool)
    (recur : String → List RFile → List RDir → String → List RFile →
      Option (List RFile × List RFile × Bool)) :
    List String → List RDir → String → List RFile → Option (List RFile)
  | _, [], _, ftd => some ftd
  | subdirs_pattern, direlt :: dirs, pfx, ftd =>
    let subdir := direlt.name
    if rm (subdirs_pattern.headD "") subdir then
      let (subfile_list, subdirs_list) := listo (pfx ++ "/" ++ subdir ++ "/")
      match recur (String.intercalate "/" subdirs_pattern.tail)
          subfile_list subdirs_list (pfx ++ "/" ++ subdir) ftd with
      | none => none
      | some (_, ftd2, _) =>
          matchDirsAux listo rm recur subdirs_pattern dirs pfx ftd2
    else
      matchDirsAux listo rm recur subdirs_pattern dirs pfx ftd

/-- The loop body of the `pattern == '**_/_*'` branch of `match`: prefix the
name when inside a subdirectory, normalise the dict, append it to both the
mutated `file_list` accumulator and `files_to_download`. -/
def starStep (selfParam : Option (List (String × String))) (pfx : String)
    (acc : List RFile × List RFile) (f : RFile) : List RFile × List RFile :=
  let f := if pfx ≠ "" then { f with name := pfx ++ "/" ++ f.name } else f
  let f := _append_file_to_download selfParam f
  (acc.1 ++ [f], acc.2 ++ [f])

/-- The loop body of the single-segment branch of `match`: files whose name
matches the pattern are normalised and collected, the others pass through
`file_list` untouched. -/
def matchFoldStep (rm : String → String → Bool)
    (selfParam : Option (List (String × String))) (pattern pfx : String)
    (acc : List RFile × List RFile) (f : RFile) : List RFile × List RFile :=
  if rm pattern f.name then starStep selfParam pfx acc f
  else (acc.1 ++ [f], acc.2)

/-- One pattern of `DownloadInterface.match`: returns
(file_list after mutation, files_to_download, early-return flag). -/
def matchStep (listo : String → List RFile × List RDir)
    (rm : String → String → Bool)
    (selfParam : Option (List (String × String))) :
    Nat → String → List RFile → List RDir → String → List RFile →
    Option (List RFile × List RFile × Bool)
  | 0, _, _, _, _, _ => none
  | fuel + 1, pattern, file_list, dir_list, pfx, ftd =>
    let subdirs_pattern := pySplitSlash pattern
    if subdirs_pattern.length > 1 then
      let subdirs_pattern :=
        if subdirs_pattern.head? = some "^" then subdirs_pattern.tail
        else subdirs_pattern
      if pattern = "**/*" then
        -- append every file under the current prefix, then return
        let (fl2, ftd2) := file_list.foldl (starStep selfParam pfx) ([], ftd)
        some (fl2, ftd2, true)
      else
        match matchDirsAux listo rm
            (fun p sfl sdl px fd => matchStep listo rm selfParam fuel p sfl sdl px fd)
            subdirs_pattern dir_list pfx ftd with
        | none => none
        | some ftd2 => some (file_list, ftd2, false)
    else
      let (fl2, ftd2) :=
        file_list.foldl (matchFoldStep rm selfParam pattern pfx) ([], ftd)
      some (fl2, ftd2, false)

/-- Result of a top-level (`submatch=False`) call of `match`. -/
structure MatchResult where
  file_list : List RFile
  files_to_download : List RFile
  raised : Bool
  deriving Repr, DecidableEq

/-- The pattern loop of a top-level `match` call: patterns are processed in
order against the same (mutated) `file_list`; an early return stops the loop
and skips the zero-match check. -/
def matchPats (listo : String → List RFile × List RDir)
    (rm : String → String → Bool)
    (selfParam : Option (List (String × String))) (fuel : Nat) :
    List String → List RFile → List RDir → List RFile →
    Option (List RFile × List RFile × Bool)
  | [], fl, _, ftd => some (fl, ftd, false)
  | p :: ps, fl, dir_list, ftd =>
    match matchStep listo rm selfParam fuel p fl dir_list "" ftd with
    | none => none
    | some (fl2, ftd2, early) =>
        if early then some (fl2, ftd2, true)
        else matchPats listo rm selfParam fuel ps fl2 dir_list ftd2

/-- `DownloadInterface.match(patterns, file_list, dir_list)` at the outermost
level (`submatch=False`, empty prefix): reset `files_to_download`, process
the patterns, and raise `'no file found matching expressions'` when no
pattern matched (unless the `**` branch returned early). -/
def interface_match (listo : String → List RFile × List RDir)
    (rm : String → String → Bool)
    (selfParam : Option (List (String × String))) (fuel : Nat)
    (patterns : List String) (file_list : List RFile)
    (dir_list : List RDir) : Option MatchResult :=
  match matchPats listo rm selfParam fuel patterns file_list dir_list [] with
  | none => none
  | some (fl, ftd, early) =>
      if early then some ⟨fl, ftd, false⟩
      else if ftd.length = 0 then some ⟨fl, ftd, true⟩
      else some ⟨fl, ftd, false⟩

/-- Two dicts are interchangeable for the matcher when they carry the same
`name` (the only key the pattern is tested against) and normalise to the
same dict.  A `file_list` mutated by one `match` call is related to the
original entrywise. -/
def matchEquiv (selfParam : Option (List (String × String)))
    (f g : RFile) : Prop :=
  f.name = g.name ∧
    _append_file_to_download selfParam f = _append_file_to_download selfParam g

/-- Python `re.match(p, s)` (anchored at the start, unanchored at the end)
for the regex fragment made of literal characters and the `.` wildcard —
enough to evaluate the matcher on concrete inputs. -/
def dotMatch : List Char → List Char → Bool
  | [], _ => true
  | _ :: _, [] => false
  | p :: ps, c :: cs => (p == '.' || p == c) && dotMatch ps cs

/-- `re.match` on strings, for literal-and-dot patterns. -/
def re_match_dot (p s : String) : Bool := dotMatch p.data s.data

/-!
# Theorems

Helper lemmas about the store and the key layout, then one theorem per
claim (with its witness or counterexample).
-/

theorem Store.get_set_self (st : Store) (k : String) (v : RVal) :
    (st.set k v).get k = some v := by
  simp [Store.set, Store.get]

theorem Store.get_set_ne (st : Store) (k k2 : String) (v : RVal)
    (h : k2 ≠ k) : (st.set k v).get k2 = st.get k2 := by
  simp [Store.set, Store.get, h]

theorem Store.get_incr_ne (st : Store) (k k2 : String) (h : k2 ≠ k) :
    (st.incr k).get k2 = st.get k2 := by
  unfold Store.incr
  split
  · exact Store.get_set_ne st k k2 _ h
  · exact Store.get_set_ne st k k2 _ h
  · split
    · exact Store.get_set_ne st k k2 _ h
    · rfl

theorem Store.lists_set (st : Store) (k : String) (v : RVal) :
    (st.set k v).lists = st.lists := rfl

theorem Store.lists_incr (st : Store) (k : String) :
    (st.incr k).lists = st.lists := by
  unfold Store.incr
  split
  · rfl
  · rfl
  · split
    · rfl
    · rfl

theorem Store.get_lpush (st : Store) (k k2 : String) (v : String) :
    (st.lpush k v).get k2 = st.get k2 := rfl

theorem Store.lists_lpush_self (st : Store) (k : String) (v : String) :
    (st.lpush k v).lists k = v :: st.lists k := by
  simp [Store.lpush]

theorem Store.lists_lpush_ne (st : Store) (k k2 : String) (v : String)
    (h : k2 ≠ k) : (st.lpush k v).lists k2 = st.lists k2 := by
  simp [Store.lpush, h]

theorem counterVal_incr_self (st : Store) (k : String)
    (h : intOrAbsent (st.get k)) :
    counterVal (st.incr k) k = counterVal st k + 1 := by
  unfold counterVal Store.incr
  cases hv : st.kv k with
  | none => simp [Store.get, Store.set, hv]
  | some v =>
      cases v with
      | rint n => simp [Store.get, Store.set, hv]
      | rstr s => simp [Store.get, intOrAbsent, hv] at h

theorem counterVal_congr (st st2 : Store) (k : String)
    (h : st2.get k = st.get k) : counterVal st2 k = counterVal st k := by
  unfold counterVal
  rw [h]

/-! Distinctness of the session keys. -/

theorem string_append_right_ne (s a b : String) (h : a ≠ b) :
    s ++ a ≠ s ++ b := by
  intro hc
  apply h
  have hd : (s ++ a).data = (s ++ b).data := by rw [hc]
  simp only [String.data_append] at hd
  have h2 := List.append_cancel_left hd
  cases a
  cases b
  exact congrArg String.mk h2

theorem string_ne_append_self (s t : String) (h : t.length ≠ 0) :
    s ≠ s ++ t := by
  intro hc
  have hl : s.length = (s ++ t).length := by rw [← hc]
  rw [String.length_append] at hl
  omega

theorem progressKey_ne_sessionKey (pfx bank session : String) :
    progressKey pfx bank session ≠ sessionKey pfx bank session := by
  unfold progressKey
  intro hc
  exact string_ne_append_self (sessionKey pfx bank session) ":progress"
    (by decide) hc.symm

theorem errorKey_ne_sessionKey (pfx bank session : String) :
    errorKey pfx bank session ≠ sessionKey pfx bank session := by
  unfold errorKey
  intro hc
  exact string_ne_append_self (sessionKey pfx bank session) ":error"
    (by decide) hc.symm

theorem progressKey_ne_errorKey (pfx bank session : String) :
    progressKey pfx bank session ≠ errorKey pfx bank session := by
  unfold progressKey errorKey
  exact string_append_right_ne _ _ _ (by decide)

theorem errorKey_ne_progressKey (pfx bank session : String) :
    errorKey pfx bank session ≠ progressKey pfx bank session := by
  unfold progressKey errorKey
  exact string_append_right_ne _ _ _ (by decide)

theorem errorInfoKey_ne_sessionKey (pfx bank session : String) :
    errorInfoKey pfx bank session ≠ sessionKey pfx bank session := by
  unfold errorInfoKey
  intro hc
  exact string_ne_append_self (sessionKey pfx bank session) ":error:info"
    (by decide) hc.symm

/-- Every branch of `callback_messages` ends in `basic_ack`. -/
theorem callbackMessages_ack (op : Option Operation) (st : Store) :
    (callbackMessages op st).2.2 = true := by
  unfold callbackMessages
  match op with
  | none => rfl
  | some (Operation.opList p b s pats hd) =>
      rcases hsl : svcList p b s hd st with ⟨st2, evs⟩
      simp only [hsl]
      split <;> rfl
  | some (Operation.opDownload p b s hd) =>
      rcases hsd : svcDownload p b s hd st with ⟨st2, evs, res⟩
      simp [hsd]
  | some Operation.opOther => rfl

/-- C9 (spec-modelled).  For the FTP listing date disambiguator, for any
current date (curY, curM, curD) and any listing entry with month m and day d
but no year, the assigned year is curY - 1 exactly when m > curM, or
m = curM and d > curD; otherwise it is curY. -/
theorem claim_C9 (curY curM curD m d : Int) :
    (ftpGuessYear curY curM curD m d = curY - 1 ↔
      (m > curM ∨ (m = curM ∧ d > curD)))
    ∧ (¬(m > curM ∨ (m = curM ∧ d > curD)) →
      ftpGuessYear curY curM curD m d = curY) := by
  simp only [ftpGuessYear]
  split_ifs with h1 h2 <;> constructor <;> omega

theorem claim_C9_witness :
    ftpGuessYear 2024 5 10 5 11 = 2023 ∧ ftpGuessYear 2024 5 10 5 9 = 2024 := by
  constructor
  · have h := (claim_C9 2024 5 10 5 11).1.mpr (Or.inr (by omega))
    omega
  · have h := (claim_C9 2024 5 10 5 9).2 (by omega)
    omega

/-- C10.  For the direct-HTTP downloader, when more than one file is queued,
`download` clears the list and returns an empty list, with no transfer and no
exception; in every case at most one file is transferred per call. -/
theorem claim_C10 (kill : Bool) (selfUrl : String) (startT endT : Nat → Int)
    (saveAs : Option String) (files : List RFile) :
    (files.length > 1 →
      directHttpDownload kill selfUrl startT endT saveAs files =
        ⟨[], [], false⟩)
    ∧ (directHttpDownload kill selfUrl startT endT saveAs files).transfers.length ≤ 1 := by
  constructor
  · intro h
    unfold directHttpDownload
    simp only [h, if_pos]
    rfl
  · unfold directHttpDownload
    by_cases h : files.length > 1
    · simp [h, directHttpLoop]
    · simp only [h, if_neg, if_false]
      match files, h with
      | [], _ => simp [directHttpLoop]
      | [f], _ =>
          cases kill <;> simp [directHttpLoop]
      | f :: g :: rest, h => simp at h

theorem claim_C10_witness :
    directHttpDownload false "http://h" (fun _ => 0) (fun _ => 0) none
      [{ name := "a" }, { name := "b" }] = ⟨[], [], false⟩ :=
  (claim_C10 false "http://h" (fun _ => 0) (fun _ => 0) none
    [{ name := "a" }, { name := "b" }]).1 (by simp)

/-- C5.  When `skip_check_uncompress` is false, a completed (successful)
transfer is followed by an archive probe; a failed probe deletes the local
file (when present) and reports the transfer as failed (error flag true, to
be retried); when `skip_check_uncompress` is true no probe is performed and
the transfer result is unchanged.  Stated for `DownloadInterface._download`
(where any entry means a successful subclass transfer) and for the try body
and loop of `FTPDownload.curl_download`. -/
theorem claim_C5 (skip : Bool) (archiveOk fileExists : Bool)
    (tOk : Nat → Option Bool) (aOk fex : Nat → Bool) (n : Nat) :
    (skip = false →
      (iface_download_check skip archiveOk fileExists).2.1 = true
      ∧ (archiveOk = false →
          (iface_download_check skip archiveOk fileExists).1 = true
          ∧ (fileExists = true →
              (iface_download_check skip archiveOk fileExists).2.2 = true)))
    ∧ (skip = true → iface_download_check skip archiveOk fileExists = (false, false, false))
    ∧ (skip = false → tOk n = some true →
        CurlEv.probe n ∈ (curlTry skip tOk aOk fex n).2
        ∧ (aOk n = false →
            (curlTry skip tOk aOk fex n).1 = true
            ∧ (fex n = true →
                CurlEv.delFile n ∈ (curlTry skip tOk aOk fex n).2)))
    ∧ (skip = true →
        (∀ m, CurlEv.probe m ∉ (curl_download skip tOk aOk fex).2)
        ∧ (curlTry skip tOk aOk fex n).1 =
            (match tOk n with | some ok => !ok | none => true)) := by
  refine ⟨?_, ?_, ?_, ?_⟩
  · intro hs
    subst hs
    cases archiveOk <;> cases fileExists <;> simp [iface_download_check]
  · intro hs
    subst hs
    simp [iface_download_check]
  · intro hs ht
    subst hs
    cases haok : aOk n <;> cases hfex : fex n <;>
      simp [curlTry, ht, haok, hfex]
  · intro hs
    subst hs
    constructor
    · intro m
      unfold curl_download curlTry
      cases h1 : tOk 1 <;> cases h2 : tOk 2 <;>
        simp_all <;> split <;> simp_all
    · unfold curlTry
      cases h1 : tOk n <;> simp [h1]

theorem claim_C5_witness :
    (iface_download_check false false true).2.1 = true
    ∧ (iface_download_check false false true).1 = true
    ∧ (iface_download_check false false true).2.2 = true
    ∧ CurlEv.probe 1 ∈ (curlTry false (fun _ => some true) (fun _ => false) (fun _ => true) 1).2
    ∧ (curlTry false (fun _ => some true) (fun _ => false) (fun _ => true) 1).1 = true
    ∧ (∀ m, CurlEv.probe m ∉
        (curl_download true (fun _ => some false) (fun _ => true) (fun _ => true)).2) := by
  have h := claim_C5 false false true (fun _ => some true) (fun _ => false) (fun _ => true) 1
  have h2 := claim_C5 true false true (fun _ => some false) (fun _ => true) (fun _ => true) 1
  refine ⟨(h.1 rfl).1, ((h.1 rfl).2 rfl).1, (((h.1 rfl).2 rfl).2 rfl), ?_, ?_, ?_⟩
  · exact (h.2.2.1 rfl rfl).1
  · exact ((h.2.2.1 rfl rfl).2 rfl).1
  · exact (h2.2.2.2 rfl).1

/-- C2.  When the session key is absent at dispatch time, both worker
operations return immediately: the store is untouched, no network call is
made (no event), no file list is returned, and the delivery is still
acknowledged by `callback_messages`. -/
theorem claim_C2 (pfx bank session : String) (st : Store)
    (h : redisTruthy (st.get (sessionKey pfx bank session)) = false) :
    (∀ handler, svcDownload pfx bank session handler st = (st, [], none))
    ∧ (∀ handler, svcList pfx bank session handler st = (st, []))
    ∧ (∀ handler, (callbackMessages
        (some (Operation.opDownload pfx bank session handler)) st).2.2 = true)
    ∧ (∀ handler pats, (callbackMessages
        (some (Operation.opList pfx bank session pats handler)) st).2.2 = true) := by
  refine ⟨?_, ?_, ?_, ?_⟩
  · intro handler
    unfold svcDownload
    simp [h]
  · intro handler
    unfold svcList
    simp [h]
  · intro handler
    exact callbackMessages_ack _ st
  · intro handler pats
    exact callbackMessages_ack _ st

theorem claim_C2_witness :
    (svcDownload "p" "b" "s" (Except.ok []) { kv := fun _ => none, lists := fun _ => [] }
      = ({ kv := fun _ => none, lists := fun _ => [] }, [], none))
    ∧ (svcList "p" "b" "s" (Except.ok []) { kv := fun _ => none, lists := fun _ => [] }
      = ({ kv := fun _ => none, lists := fun _ => [] }, [])) := by
  have h := claim_C2 "p" "b" "s" { kv := fun _ => none, lists := fun _ => [] } rfl
  exact ⟨h.1 (Except.ok []), h.2.1 (Except.ok [])⟩

/-- C1.  For a job whose session is alive, the worker increments `progress`
by exactly one whether the handler succeeded or raised; on a raise it also
increments the `error` counter by one and prepends the message to
`error:info` (success changes neither); and the delivery is acknowledged in
both cases. -/
theorem claim_C1 (pfx bank session : String)
    (handler : Except String (List RFile)) (st : Store)
    (hse : redisTruthy (st.get (sessionKey pfx bank session)) = true)
    (hp : intOrAbsent (st.get (progressKey pfx bank session)))
    (he : intOrAbsent (st.get (errorKey pfx bank session))) :
    counterVal (svcDownload pfx bank session handler st).1
        (progressKey pfx bank session)
      = counterVal st (progressKey pfx bank session) + 1
    ∧ (∀ e, handler = Except.error e →
        counterVal (svcDownload pfx bank session handler st).1
            (errorKey pfx bank session)
          = counterVal st (errorKey pfx bank session) + 1
        ∧ (svcDownload pfx bank session handler st).1.lists
            (errorInfoKey pfx bank session)
          = e :: st.lists (errorInfoKey pfx bank session))
    ∧ (∀ files, handler = Except.ok files →
        (svcDownload pfx bank session handler st).1.get
            (errorKey pfx bank session)
          = st.get (errorKey pfx bank session)
        ∧ (svcDownload pfx bank session handler st).1.lists
            (errorInfoKey pfx bank session)
          = st.lists (errorInfoKey pfx bank session))
    ∧ (callbackMessages
        (some (Operation.opDownload pfx bank session handler)) st).2.2 = true := by
  have hsk_ek := errorKey_ne_sessionKey pfx bank session
  have hpk_ek := progressKey_ne_errorKey pfx bank session
  have hek_pk := errorKey_ne_progressKey pfx bank session
  cases handler with
  | ok files =>
      have hstep : svcDownload pfx bank session (Except.ok files) st =
          (st.incr (progressKey pfx bank session), [SvcEvent.netDownload],
            some files) := by
        unfold svcDownload
        simp [hse]
      refine ⟨?_, ?_, ?_, callbackMessages_ack _ st⟩
      · rw [hstep]
        exact counterVal_incr_self st _ hp
      · intro e hc
        cases hc
      · intro fs hc
        rw [hstep]
        exact ⟨Store.get_incr_ne st _ _ hek_pk, by rw [Store.lists_incr]⟩
  | error e0 =>
      have hs1 : ((st.incr (errorKey pfx bank session)).lpush
          (errorInfoKey pfx bank session) e0).get (sessionKey pfx bank session)
          = st.get (sessionKey pfx bank session) := by
        rw [Store.get_lpush, Store.get_incr_ne st _ _ (Ne.symm hsk_ek)]
      have hstep : svcDownload pfx bank session (Except.error e0) st =
          (((st.incr (errorKey pfx bank session)).lpush
              (errorInfoKey pfx bank session) e0).incr
                (progressKey pfx bank session),
            [SvcEvent.netDownload], some []) := by
        unfold svcDownload
        simp [hse, hs1]
      have hget_pk : ((st.incr (errorKey pfx bank session)).lpush
          (errorInfoKey pfx bank session) e0).get (progressKey pfx bank session)
          = st.get (progressKey pfx bank session) := by
        rw [Store.get_lpush, Store.get_incr_ne st _ _ hpk_ek]
      refine ⟨?_, ?_, ?_, callbackMessages_ack _ st⟩
      · rw [hstep]
        have h1 := counterVal_incr_self
          ((st.incr (errorKey pfx bank session)).lpush
            (errorInfoKey pfx bank session) e0)
          (progressKey pfx bank session) (by rw [hget_pk]; exact hp)
        rw [h1, counterVal_congr _ _ _ hget_pk]
      · intro e hc
        cases hc
        refine ⟨?_, ?_⟩
        · rw [hstep]
          have h2 : ((((st.incr (errorKey pfx bank session)).lpush
              (errorInfoKey pfx bank session) e0).incr
                (progressKey pfx bank session)).get (errorKey pfx bank session))
              = (st.incr (errorKey pfx bank session)).get
                  (errorKey pfx bank session) := by
            rw [Store.get_incr_ne _ _ _ hek_pk, Store.get_lpush]
          rw [counterVal_congr _ _ _ h2]
          exact counterVal_incr_self st _ he
        · rw [hstep, Store.lists_incr, Store.lists_lpush_self,
            Store.lists_incr]
      · intro fs hc
        cases hc

theorem claim_C1_witness :
    counterVal (svcDownload "p" "b" "s" (Except.error "boom")
        (storeWith (sessionKey "p" "b" "s"))).1 (progressKey "p" "b" "s") = 1
    ∧ counterVal (svcDownload "p" "b" "s" (Except.error "boom")
        (storeWith (sessionKey "p" "b" "s"))).1 (errorKey "p" "b" "s") = 1
    ∧ (svcDownload "p" "b" "s" (Except.error "boom")
        (storeWith (sessionKey "p" "b" "s"))).1.lists (errorInfoKey "p" "b" "s")
      = ["boom"] := by
  have h := claim_C1 "p" "b" "s" (Except.error "boom")
    (storeWith (sessionKey "p" "b" "s"))
    (by simp [storeWith, Store.get, redisTruthy])
    (by simp [storeWith, Store.get, intOrAbsent,
      progressKey_ne_sessionKey "p" "b" "s"])
    (by simp [storeWith, Store.get, intOrAbsent,
      errorKey_ne_sessionKey "p" "b" "s"])
  have hcv : counterVal (storeWith (sessionKey "p" "b" "s"))
      (progressKey "p" "b" "s") = 0 := by
    simp [storeWith, counterVal, Store.get, progressKey_ne_sessionKey "p" "b" "s"]
  have hce : counterVal (storeWith (sessionKey "p" "b" "s"))
      (errorKey "p" "b" "s") = 0 := by
    simp [storeWith, counterVal, Store.get, errorKey_ne_sessionKey "p" "b" "s"]
  refine ⟨?_, ?_, ?_⟩
  · rw [h.1, hcv]
    omega
  · rw [(h.2.1 "boom" rfl).1, hce]
    omega
  · rw [(h.2.1 "boom" rfl).2]
    rfl

/-- C8.  In remote mode with the key/value store configured, an iteration of
the polling loop that observes the `action:cancel` flag consumes the flag and
raises Canceled immediately: no job is submitted and no progress poll is made
before the raise. -/
theorem claim_C8 (pfx bank : String) (rateLimiting nbFiles : Nat)
    (status : Nat × Nat) (st : Store) (pool : List Nat)
    (nbSubmitted : Nat) (downloadError : Bool)
    (hflag : redisTruthy (st.get (cancelKey pfx bank)) = true) :
    waitIteration true pfx bank rateLimiting nbFiles status st pool
        nbSubmitted downloadError
      = (IterOutcome.canceled (st.del (cancelKey pfx bank)), [])
    ∧ (st.del (cancelKey pfx bank)).get (cancelKey pfx bank) = none := by
  constructor
  · unfold waitIteration
    simp [hflag]
  · simp [Store.del, Store.get]

theorem claim_C8_witness :
    waitIteration true "p" "b" 2 10 (3, 0) (storeWith (cancelKey "p" "b"))
        [1, 2] 1 false
      = (IterOutcome.canceled
          ((storeWith (cancelKey "p" "b")).del (cancelKey "p" "b")), []) :=
  (claim_C8 "p" "b" 2 10 (3, 0) (storeWith (cancelKey "p" "b")) [1, 2] 1 false
    (by simp [storeWith, Store.get, redisTruthy])).1

/-- Behaviour of `download_loop` when the first failing transfer (relative to
the start position `n`) is at offset `k`: the call raises, the attempted
positions are exactly `n, n+1, ..., n+k`, files before the failure carry
their end-minus-start download time, the failing file carries
`download_time = 0` and `error = True`, and later files are untouched. -/
theorem download_loop_first_fail (rr : Nat → Bool) (sT eT : Nat → Int) :
    ∀ (files : List RFile) (n k : Nat), k < files.length →
    (∀ j, j < k → rr (n + j) = false) → rr (n + k) = true →
    (download_loop false rr sT eT files n).2.2 = true
    ∧ (download_loop false rr sT eT files n).2.1 = List.range' n (k + 1)
    ∧ (download_loop false rr sT eT files n).1.length = files.length
    ∧ (∀ j, j < k → (download_loop false rr sT eT files n).1[j]? =
        (files[j]?).map
          (fun g => { g with download_time := some (eT (n + j) - sT (n + j)) }))
    ∧ (download_loop false rr sT eT files n).1[k]? =
        (files[k]?).map
          (fun g => { g with download_time := some 0, error := some true })
    ∧ (∀ j, k < j → (download_loop false rr sT eT files n).1[j]? = files[j]?) := by
  intro files
  induction files with
  | nil =>
      intro n k hk hmin hfail
      simp at hk
  | cons f rest ih =>
      intro n k hk hmin hfail
      cases k with
      | zero =>
          have hrrn : rr n = true := by simpa using hfail
          simp only [download_loop, Bool.false_eq_true, if_false, hrrn, if_true]
          refine ⟨by trivial, ?_, by simp, ?_, ?_, ?_⟩
          · simp [List.range']
          · intro j hj
            omega
          · simp
          · intro j hj
            cases j with
            | zero => omega
            | succ j2 => simp
      | succ k2 =>
          have h0 : rr n = false := by
            have := hmin 0 (Nat.succ_pos k2)
            simpa using this
          have hmin2 : ∀ j, j < k2 → rr (n + 1 + j) = false := by
            intro j hj
            have := hmin (j + 1) (by omega)
            have he : n + (j + 1) = n + 1 + j := by omega
            rwa [he] at this
          have hfail2 : rr (n + 1 + k2) = true := by
            have he : n + (k2 + 1) = n + 1 + k2 := by omega
            rwa [he] at hfail
          have hrec := ih (n + 1) k2 (by simpa using hk) hmin2 hfail2
          rcases hdl : download_loop false rr sT eT rest (n + 1) with ⟨fs, evs, r⟩
          rw [hdl] at hrec
          simp only [download_loop, Bool.false_eq_true, if_false, h0, hdl]
          refine ⟨hrec.1, ?_, ?_, ?_, ?_, ?_⟩
          · rw [List.range'_succ]
            simp only [List.cons.injEq, true_and]
            exact hrec.2.1
          · simp [hrec.2.2.1]
          · intro j hj
            cases j with
            | zero =>
                simp
            | succ j2 =>
                have := hrec.2.2.2.1 j2 (by omega)
                simp only [List.getElem?_cons_succ]
                rw [this]
                have he1 : n + 1 + j2 = n + (j2 + 1) := by omega
                rw [he1]
          · simp only [List.getElem?_cons_succ]
            exact hrec.2.2.2.2.1
          · intro j hj
            cases j with
            | zero => omega
            | succ j2 =>
                simp only [List.getElem?_cons_succ]
                exact hrec.2.2.2.2.2 j2 (by omega)

/-- C3.  `download(local_dir)` processes the internal file list in order and
raises at the first file whose retryer-wrapped transfer ultimately fails:
exactly positions `0..i` are attempted (later files are untouched), the
failing entry gets `error = True` and `download_time = 0`, and every earlier
(successful) entry gets `download_time` equal to the observed end-minus-start
time. -/
theorem claim_C3 (rr : Nat → Bool) (sT eT : Nat → Int) (files : List RFile)
    (i : Nat) (hi : i < files.length) (hfail : rr i = true)
    (hmin : ∀ j, j < i → rr j = false) :
    (iface_download false rr sT eT files).2.2 = true
    ∧ (iface_download false rr sT eT files).2.1 = List.range (i + 1)
    ∧ (iface_download false rr sT eT files).1.length = files.length
    ∧ (∀ j, j < i → (iface_download false rr sT eT files).1[j]? =
        (files[j]?).map
          (fun g => { g with download_time := some (eT j - sT j) }))
    ∧ (iface_download false rr sT eT files).1[i]? =
        (files[i]?).map
          (fun g => { g with download_time := some 0, error := some true })
    ∧ (∀ j, i < j → (iface_download false rr sT eT files).1[j]? = files[j]?) := by
  have h := download_loop_first_fail rr sT eT files 0 i hi
    (by intro j hj; simpa using hmin j hj) (by simpa using hfail)
  unfold iface_download
  refine ⟨h.1, ?_, h.2.2.1, ?_, h.2.2.2.2.1, h.2.2.2.2.2⟩
  · rw [h.2.1, List.range_eq_range']
  · intro j hj
    have := h.2.2.2.1 j hj
    simpa using this

theorem claim_C3_witness :
    (iface_download false (fun n => n == 1) (fun _ => 0) (fun n => (n : Int))
      [{ name := "a" }, { name := "b" }, { name := "c" }]).2.2 = true
    ∧ (iface_download false (fun n => n == 1) (fun _ => 0) (fun n => (n : Int))
      [{ name := "a" }, { name := "b" }, { name := "c" }]).2.1 = [0, 1] := by
  have h := claim_C3 (fun n => n == 1) (fun _ => 0) (fun n => (n : Int))
    [{ name := "a" }, { name := "b" }, { name := "c" }] 1
    (by simp) (by rfl)
    (by
      intro j hj
      have hj0 : j = 0 := by omega
      subst hj0
      rfl)
  exact ⟨h.1, by rw [h.2.1]; rfl⟩

/-- Characterization of the retry driver: a result `(n, r)` means `r` is the
result of attempt `n` (the final attempt), every earlier attempt from the
start returned a retryable result (True) with the stop condition not yet
fired, and the run ended either by a success (False result) or by the stop
condition firing. -/
theorem retrying_spec (stop : RetryState → Bool) (elapsedAt : Nat → Int)
    (f : Nat → Bool) :
    ∀ (fuel n0 n : Nat) (r : Bool),
    retrying stop elapsedAt f fuel n0 = some (n, r) →
    r = f n ∧ n0 ≤ n
    ∧ (∀ m, n0 ≤ m → m < n → f m = true ∧ stop ⟨m, elapsedAt m⟩ = false)
    ∧ (f n = false ∨ stop ⟨n, elapsedAt n⟩ = true) := by
  intro fuel
  induction fuel with
  | zero =>
      intro n0 n r h
      simp [retrying] at h
  | succ fuel ih =>
      intro n0 n r h
      simp only [retrying] at h
      by_cases hf : f n0 = true
      · by_cases hs : stop ⟨n0, elapsedAt n0⟩ = true
        · simp [hf, is_true, hs] at h
          obtain ⟨h1, h2⟩ := h
          subst h1
          subst h2
          refine ⟨hf.symm, Nat.le_refl n0, ?_, Or.inr hs⟩
          intro m hm1 hm2
          omega
        · have hs2 : stop ⟨n0, elapsedAt n0⟩ = false := by simpa using hs
          simp [hf, is_true, hs2] at h
          have hrec := ih (n0 + 1) n r h
          refine ⟨hrec.1, by omega, ?_, hrec.2.2.2⟩
          intro m hm1 hm2
          by_cases hm : m = n0
          · subst hm
            exact ⟨hf, hs2⟩
          · exact hrec.2.2.1 m (by omega) hm2
      · have hf2 : f n0 = false := by simpa using hf
        simp [hf2, is_true] at h
        obtain ⟨h1, h2⟩ := h
        subst h1
        subst h2
        refine ⟨hf2.symm, Nat.le_refl n0, ?_, Or.inl hf2⟩
        intro m hm1 hm2
        omega

theorem applyStopFn_not_whitelisted (fn : String) (vs : List SEVal)
    (h : (["stop_when_event_set", "stop_after_attempt", "stop_after_delay",
      "stop_any", "stop_all"].contains fn) = false) :
    (applyStopFn fn vs).isOk = false := by
  have h1 : ¬ fn = "stop_after_attempt" := by intro hc; subst hc; simp at h
  have h2 : ¬ fn = "stop_after_delay" := by intro hc; subst hc; simp at h
  have h3 : ¬ fn = "stop_any" := by intro hc; subst hc; simp at h
  have h4 : ¬ fn = "stop_all" := by intro hc; subst hc; simp at h
  have h5 : ¬ fn = "stop_when_event_set" := by intro hc; subst hc; simp at h
  unfold applyStopFn
  rw [if_neg h1, if_neg h2, if_neg h3, if_neg h4, if_neg h5]
  rfl

theorem applyWaitFn_not_whitelisted (fn : String) (vs : List SEVal)
    (h : (["wait_fixed", "wait_random", "wait_incrementing", "wait_exponential",
      "wait_random_exponential", "wait_combine", "wait_chain"].contains fn) = false) :
    (applyWaitFn fn vs).isOk = false := by
  have h1 : ¬ fn = "wait_fixed" := by intro hc; subst hc; simp at h
  have h2 : ¬ fn = "wait_random" := by intro hc; subst hc; simp at h
  have h3 : ¬ fn = "wait_incrementing" := by intro hc; subst hc; simp at h
  have h4 : ¬ fn = "wait_exponential" := by intro hc; subst hc; simp at h
  have h5 : ¬ fn = "wait_random_exponential" := by intro hc; subst hc; simp at h
  have h6 : ¬ fn = "wait_combine" := by intro hc; subst hc; simp at h
  have h7 : ¬ fn = "wait_chain" := by intro hc; subst hc; simp at h
  unfold applyWaitFn
  rw [if_neg h1, if_neg h2, if_neg h3, if_neg h4, if_neg h5, if_neg h6,
    if_neg h7]
  rfl

theorem except_bind_error {α β : Type} (msg : String)
    (f : α → Except String β) :
    (Except.error msg >>= f) = Except.error msg := rfl

theorem except_bind_ok {α β : Type} (a : α) (f : α → Except String β) :
    ((Except.ok a : Except String α) >>= f) = f a := rfl

theorem isOk_ok {α : Type} (a : α) :
    (Except.ok a : Except String α).isOk = true := rfl

theorem isOk_error {α : Type} (msg : String) :
    (Except.error msg : Except String α).isOk = false := rfl

mutual

/-- An expression containing a construct outside the stop whitelist fails to
evaluate. -/
theorem stopExprBad_error : ∀ (e : SEExpr), stopExprBad e = true →
    (evalStopExpr e).isOk = false
  | SEExpr.num n, h => by simp [stopExprBad] at h
  | SEExpr.strLit s, h => by simp [stopExprBad] at h
  | SEExpr.name s, h => by
      simp only [stopExprBad, decide_eq_true_eq] at h
      simp only [evalStopExpr]
      rw [if_neg h]
      rfl
  | SEExpr.call fn args, h => by
      simp only [stopExprBad, Bool.or_eq_true] at h
      cases hargs : evalStopArgs args with
      | error msg => simp [evalStopExpr, hargs, except_bind_error, isOk_error]
      | ok vs =>
          have hargsb : ¬ stopArgsBad args = true := fun hab => by
            have h2 := stopArgsBad_error args hab
            rw [hargs, isOk_ok] at h2
            cases h2
          have hcont : (["stop_when_event_set", "stop_after_attempt",
              "stop_after_delay", "stop_any", "stop_all"].contains fn) = false := by
            rcases h with h | h
            · simpa using h
            · exact absurd h hargsb
          simp only [evalStopExpr, hargs, except_bind_ok]
          exact applyStopFn_not_whitelisted fn vs hcont
  | SEExpr.binop op l r, h => by
      simp only [stopExprBad, Bool.or_eq_true] at h
      cases hevl : evalStopExpr l with
      | error msg => simp [evalStopExpr, hevl, except_bind_error, isOk_error]
      | ok lv =>
          have hbl : ¬ stopExprBad l = true := fun hb => by
            have h2 := stopExprBad_error l hb
            rw [hevl, isOk_ok] at h2
            cases h2
          cases hevr : evalStopExpr r with
          | error msg =>
              simp [evalStopExpr, hevl, hevr, except_bind_error, except_bind_ok,
                isOk_error]
          | ok rv =>
              have hbr : ¬ stopExprBad r = true := fun hb => by
                have h2 := stopExprBad_error r hb
                rw [hevr, isOk_ok] at h2
                exact Bool.noConfusion h2
              have hop : ¬ (op = SEOp.bitOr ∨ op = SEOp.bitAnd) := by
                rcases h with (h | h) | h
                · simpa using h
                · exact absurd h hbl
                · exact absurd h hbr
              cases op with
              | bitOr => exact absurd (Or.inl rfl) hop
              | bitAnd => exact absurd (Or.inr rfl) hop
              | add =>
                  simp [evalStopExpr, hevl, hevr, except_bind_ok, isOk_error]
              | otherOp d =>
                  simp [evalStopExpr, hevl, hevr, except_bind_ok, isOk_error]

theorem stopArgsBad_error : ∀ (es : List SEExpr), stopArgsBad es = true →
    (evalStopArgs es).isOk = false
  | [], h => by simp [stopArgsBad] at h
  | e :: es, h => by
      simp only [stopArgsBad, Bool.or_eq_true] at h
      cases hev : evalStopExpr e with
      | error msg => simp [evalStopArgs, hev, except_bind_error, isOk_error]
      | ok v =>
          have hbe : ¬ stopExprBad e = true := fun hb => by
            have h2 := stopExprBad_error e hb
            rw [hev, isOk_ok] at h2
            cases h2
          have hes : stopArgsBad es = true := by
            rcases h with h | h
            · exact absurd h hbe
            · exact h
          have hrec := stopArgsBad_error es hes
          cases hevs : evalStopArgs es with
          | error msg =>
              simp [evalStopArgs, hev, hevs, except_bind_error, except_bind_ok,
                isOk_error]
          | ok vs =>
              rw [hevs, isOk_ok] at hrec
              cases hrec

end

mutual

/-- An expression containing a construct outside the wait whitelist fails to
evaluate. -/
theorem waitExprBad_error : ∀ (e : SEExpr), waitExprBad e = true →
    (evalWaitExpr e).isOk = false
  | SEExpr.num n, h => by simp [waitExprBad] at h
  | SEExpr.strLit s, h => by simp [waitExprBad] at h
  | SEExpr.name s, h => by
      simp only [waitExprBad, decide_eq_true_eq] at h
      simp only [evalWaitExpr]
      rw [if_neg h]
      rfl
  | SEExpr.call fn args, h => by
      simp only [waitExprBad, Bool.or_eq_true] at h
      cases hargs : evalWaitArgs args with
      | error msg => simp [evalWaitExpr, hargs, except_bind_error, isOk_error]
      | ok vs =>
          have hargsb : ¬ waitArgsBad args = true := fun hab => by
            have h2 := waitArgsBad_error args hab
            rw [hargs, isOk_ok] at h2
            cases h2
          have hcont : (["wait_fixed", "wait_random", "wait_incrementing",
              "wait_exponential", "wait_random_exponential", "wait_combine",
              "wait_chain"].contains fn) = false := by
            rcases h with h | h
            · simpa using h
            · exact absurd h hargsb
          simp only [evalWaitExpr, hargs, except_bind_ok]
          exact applyWaitFn_not_whitelisted fn vs hcont
  | SEExpr.binop op l r, h => by
      simp only [waitExprBad, Bool.or_eq_true] at h
      cases hevl : evalWaitExpr l with
      | error msg => simp [evalWaitExpr, hevl, except_bind_error, isOk_error]
      | ok lv =>
          have hbl : ¬ waitExprBad l = true := fun hb => by
            have h2 := waitExprBad_error l hb
            rw [hevl, isOk_ok] at h2
            cases h2
          cases hevr : evalWaitExpr r with
          | error msg =>
              simp [evalWaitExpr, hevl, hevr, except_bind_error, except_bind_ok,
                isOk_error]
          | ok rv =>
              have hbr : ¬ waitExprBad r = true := fun hb => by
                have h2 := waitExprBad_error r hb
                rw [hevr, isOk_ok] at h2
                exact Bool.noConfusion h2
              have hop : ¬ op = SEOp.add := by
                rcases h with (h | h) | h
                · simpa using h
                · exact absurd h hbl
                · exact absurd h hbr
              cases op with
              | add => exact absurd rfl hop
              | bitOr =>
                  simp [evalWaitExpr, hevl, hevr, except_bind_ok, isOk_error]
              | bitAnd =>
                  simp [evalWaitExpr, hevl, hevr, except_bind_ok, isOk_error]
              | otherOp d =>
                  simp [evalWaitExpr, hevl, hevr, except_bind_ok, isOk_error]

theorem waitArgsBad_error : ∀ (es : List SEExpr), waitArgsBad es = true →
    (evalWaitArgs es).isOk = false
  | [], h => by simp [waitArgsBad] at h
  | e :: es, h => by
      simp only [waitArgsBad, Bool.or_eq_true] at h
      cases hev : evalWaitExpr e with
      | error msg => simp [evalWaitArgs, hev, except_bind_error, isOk_error]
      | ok v =>
          have hbe : ¬ waitExprBad e = true := fun hb => by
            have h2 := waitExprBad_error e hb
            rw [hev, isOk_ok] at h2
            cases h2
          have hes : waitArgsBad es = true := by
            rcases h with h | h
            · exact absurd h hbe
            · exact h
          have hrec := waitArgsBad_error es hes
          cases hevs : evalWaitArgs es with
          | error msg =>
              simp [evalWaitArgs, hev, hevs, except_bind_error, except_bind_ok,
                isOk_error]
          | ok vs =>
              rw [hevs, isOk_ok] at hrec
              cases hrec

end

theorem set_retryer_stop_bad (e : SEExpr) (w : Sum WaitPol SEExpr)
    (h : stopExprBad e = true) :
    ∃ msg, set_retryer (Sum.inr e) w = Except.error msg := by
  have hb := stopExprBad_error e h
  cases hev : evalStopExpr e with
  | ok v =>
      rw [hev, isOk_ok] at hb
      exact Bool.noConfusion hb
  | error msg =>
      refine ⟨"Error while parsing stop condition: " ++ msg, ?_⟩
      simp [set_retryer, hev, except_bind_error]

theorem set_retryer_wait_bad (c : StopCond) (e : SEExpr)
    (h : waitExprBad e = true) :
    ∃ msg, set_retryer (Sum.inl c) (Sum.inr e) = Except.error msg := by
  have hb := waitExprBad_error e h
  cases hev : evalWaitExpr e with
  | ok v =>
      rw [hev, isOk_ok] at hb
      exact Bool.noConfusion hb
  | error msg =>
      refine ⟨"Error while parsing wait policy: " ++ msg, ?_⟩
      simp [set_retryer, hev, except_bind_ok, except_bind_error]

/-- C4.  The retry driver invokes `_download` until it returns a non-True
error flag or the stop condition fires, and the driver's value is the final
attempt's result; a stop-condition or wait-policy expression containing any
construct outside the whitelisted constructors/names/operators evaluates to
an error, and `_set_retryer` then fails (the ValueError the spec calls
ConfigError) before any retryer is installed. -/
theorem claim_C4 :
    (∀ (stop : RetryState → Bool) (elapsedAt : Nat → Int) (f : Nat → Bool)
      (fuel n0 n : Nat) (r : Bool),
      retrying stop elapsedAt f fuel n0 = some (n, r) →
      r = f n ∧ n0 ≤ n
      ∧ (∀ m, n0 ≤ m → m < n → f m = true ∧ stop ⟨m, elapsedAt m⟩ = false)
      ∧ (f n = false ∨ stop ⟨n, elapsedAt n⟩ = true))
    ∧ (∀ e, stopExprBad e = true → (evalStopExpr e).isOk = false)
    ∧ (∀ e, waitExprBad e = true → (evalWaitExpr e).isOk = false)
    ∧ (∀ e w, stopExprBad e = true →
        ∃ msg, set_retryer (Sum.inr e) w = Except.error msg)
    ∧ (∀ c e, waitExprBad e = true →
        ∃ msg, set_retryer (Sum.inl c) (Sum.inr e) = Except.error msg) :=
  ⟨fun stop el f fuel n0 n r h => retrying_spec stop el f fuel n0 n r h,
   stopExprBad_error, waitExprBad_error, set_retryer_stop_bad,
   set_retryer_wait_bad⟩

theorem claim_C4_witness :
    (decide ((3 : Nat) < 3) = false ∨ decide ((3 : Nat) ≥ 5) = true)
    ∧ (evalStopExpr (SEExpr.name "bogus")).isOk = false
    ∧ (evalWaitExpr (SEExpr.binop SEOp.bitOr (SEExpr.name "wait_none")
        (SEExpr.name "wait_none"))).isOk = false
    ∧ (∃ msg, set_retryer (Sum.inr (SEExpr.name "bogus"))
        (Sum.inl WaitPol.wait_none) = Except.error msg)
    ∧ (∃ msg, set_retryer (Sum.inl StopCond.stop_never)
        (Sum.inr (SEExpr.call "stop_after_attempt" [SEExpr.num 3]))
        = Except.error msg) := by
  have h := claim_C4
  refine ⟨?_, ?_, ?_, ?_, ?_⟩
  · exact (h.1 (fun rs => decide (rs.attempt_number ≥ 5)) (fun _ => 0)
      (fun n => decide (n < 3)) 10 1 3 false (by decide)).2.2.2
  · exact h.2.1 (SEExpr.name "bogus") (by decide)
  · exact h.2.2.1 _ (by decide)
  · exact h.2.2.2.1 (SEExpr.name "bogus") (Sum.inl WaitPol.wait_none) (by decide)
  · exact h.2.2.2.2 StopCond.stop_never
      (SEExpr.call "stop_after_attempt" [SEExpr.num 3]) (by decide)

theorem charsLe_trans : ∀ l1 l2 l3 : List Char, charsLe l1 l2 = true →
    charsLe l2 l3 = true → charsLe l1 l3 = true := by
  intro l1
  induction l1 with
  | nil => intro l2 l3 _ _; rfl
  | cons c cs ih =>
      intro l2 l3 h12 h23
      cases l2 with
      | nil => simp [charsLe] at h12
      | cons d ds =>
          cases l3 with
          | nil => simp [charsLe] at h23
          | cons e es =>
              simp only [charsLe] at h12 h23 ⊢
              by_cases hcd : c.toNat < d.toNat
              · by_cases hde : d.toNat < e.toNat
                · rw [if_pos (by omega : c.toNat < e.toNat)]
                · by_cases hed : e.toNat < d.toNat
                  · rw [if_neg hde, if_pos hed] at h23
                    simp at h23
                  · rw [if_pos (by omega : c.toNat < e.toNat)]
              · by_cases hdc : d.toNat < c.toNat
                · rw [if_neg hcd, if_pos hdc] at h12
                  simp at h12
                · rw [if_neg hcd, if_neg hdc] at h12
                  by_cases hde : d.toNat < e.toNat
                  · rw [if_pos (by omega : c.toNat < e.toNat)]
                  · by_cases hed : e.toNat < d.toNat
                    · rw [if_neg hde, if_pos hed] at h23
                      simp at h23
                    · rw [if_neg hde, if_neg hed] at h23
                      rw [if_neg (by omega : ¬ c.toNat < e.toNat),
                        if_neg (by omega : ¬ e.toNat < c.toNat)]
                      exact ih ds es h12 h23

theorem charsLe_total : ∀ l1 l2 : List Char,
    (charsLe l1 l2 || charsLe l2 l1) = true := by
  intro l1
  induction l1 with
  | nil => intro l2; simp [charsLe]
  | cons c cs ih =>
      intro l2
      cases l2 with
      | nil => simp [charsLe]
      | cons d ds =>
          simp only [charsLe]
          by_cases hcd : c.toNat < d.toNat
          · rw [if_pos hcd]
            simp
          · by_cases hdc : d.toNat < c.toNat
            · rw [if_neg hcd, if_pos hdc, if_pos hdc]
              simp
            · rw [if_neg hcd, if_neg hdc, if_neg hdc, if_neg hcd]
              exact ih ds

theorem charsLe_antisymm : ∀ l1 l2 : List Char, charsLe l1 l2 = true →
    charsLe l2 l1 = true → l1 = l2 := by
  intro l1
  induction l1 with
  | nil =>
      intro l2 _ h21
      cases l2 with
      | nil => rfl
      | cons d ds => simp [charsLe] at h21
  | cons c cs ih =>
      intro l2 h12 h21
      cases l2 with
      | nil => simp [charsLe] at h12
      | cons d ds =>
          simp only [charsLe] at h12 h21
          by_cases hcd : c.toNat < d.toNat
          · rw [if_neg (by omega : ¬ d.toNat < c.toNat),
              if_pos hcd] at h21
            simp at h21
          · by_cases hdc : d.toNat < c.toNat
            · rw [if_neg hcd, if_pos hdc] at h12
              simp at h12
            · rw [if_neg hcd, if_neg hdc] at h12
              rw [if_neg hdc, if_neg hcd] at h21
              have hc : c = d := Char.ext (UInt32.ext (by
                have h1 : c.toNat = c.val.toNat := rfl
                have h2 : d.toNat = d.val.toNat := rfl
                omega))
              rw [hc, ih ds h12 h21]

theorem pyStrLe_antisymm (a b : String) (h1 : pyStrLe a b = true)
    (h2 : pyStrLe b a = true) : a = b := by
  have hd := charsLe_antisymm a.data b.data h1 h2
  cases a
  cases b
  exact congrArg String.mk hd

theorem nameLeB_trans : ∀ a b c : RFile, nameLeB a b = true →
    nameLeB b c = true → nameLeB a c = true :=
  fun a b c h1 h2 => charsLe_trans a.name.data b.name.data c.name.data h1 h2

theorem nameLeB_total : ∀ a b : RFile, (nameLeB a b || nameLeB b a) = true :=
  fun a b => charsLe_total a.name.data b.name.data

theorem tupLeB_trans : ∀ a b c : String × Int × Int × Int × Int,
    tupLeB a b = true → tupLeB b c = true → tupLeB a c = true :=
  fun a b c h1 h2 => charsLe_trans a.1.data b.1.data c.1.data h1 h2

theorem tupLeB_total : ∀ a b : String × Int × Int × Int × Int,
    (tupLeB a b || tupLeB b a) = true :=
  fun a b => charsLe_total a.1.data b.1.data

theorem insertLe_perm {α : Type} (le : α → α → Bool) (x : α) :
    ∀ l : List α, (insertLe le x l).Perm (x :: l) := by
  intro l
  induction l with
  | nil => exact List.Perm.refl _
  | cons y ys ih =>
      simp only [insertLe]
      by_cases h : le x y = true
      · rw [if_pos h]
      · rw [if_neg h]
        exact (ih.cons y).trans (List.Perm.swap x y ys)

theorem pySort_perm {α : Type} (le : α → α → Bool) :
    ∀ l : List α, (pySort le l).Perm l := by
  intro l
  induction l with
  | nil => exact List.Perm.refl _
  | cons x xs ih =>
      simp only [pySort]
      exact (insertLe_perm le x (pySort le xs)).trans (ih.cons x)

theorem insertLe_sorted {α : Type} (le : α → α → Bool)
    (htrans : ∀ a b c, le a b = true → le b c = true → le a c = true)
    (htotal : ∀ a b, (le a b || le b a) = true) (x : α) :
    ∀ l : List α, List.Pairwise (fun a b => le a b = true) l →
    List.Pairwise (fun a b => le a b = true) (insertLe le x l) := by
  intro l
  induction l with
  | nil =>
      intro _
      simp [insertLe]
  | cons y ys ih =>
      intro h
      rw [List.pairwise_cons] at h
      obtain ⟨hy, hys⟩ := h
      simp only [insertLe]
      by_cases hxy : le x y = true
      · rw [if_pos hxy]
        rw [List.pairwise_cons]
        refine ⟨?_, List.pairwise_cons.mpr ⟨hy, hys⟩⟩
        intro z hz
        rcases List.mem_cons.mp hz with hh | hh
        · rw [hh]
          exact hxy
        · exact htrans x y z hxy (hy z hh)
      · rw [if_neg hxy]
        have hyx : le y x = true := by
          have := htotal x y
          rw [Bool.or_eq_true] at this
          rcases this with hh | hh
          · exact absurd hh hxy
          · exact hh
        rw [List.pairwise_cons]
        refine ⟨?_, ih hys⟩
        intro z hz
        have hz2 : z ∈ x :: ys := ((insertLe_perm le x ys).mem_iff).mp hz
        rcases List.mem_cons.mp hz2 with hh | hh
        · rw [hh]
          exact hyx
        · exact hy z hh

theorem pySort_sorted {α : Type} (le : α → α → Bool)
    (htrans : ∀ a b c, le a b = true → le b c = true → le a c = true)
    (htotal : ∀ a b, (le a b || le b a) = true) :
    ∀ l : List α, List.Pairwise (fun a b => le a b = true) (pySort le l) := by
  intro l
  induction l with
  | nil => simp [pySort]
  | cons x xs ih =>
      simp only [pySort]
      exact insertLe_sorted le htrans htotal x (pySort le xs) ih

theorem fileTup_set_root (f : RFile) (r : Option String) :
    fileTup { f with root := r } = fileTup f := rfl

/-- Soundness of the dispatch loop of `download_or_copy`: when the download
list is sorted with distinct names, `new_or_modified_files` is sorted with
distinct names, every list entry whose tuple is not in the local tuple set
appears in `new_or_modified_files`, and every such tuple names a list entry,
then every file the loop sends to `files_to_copy` (1) is a list entry whose
tuple IS in the local tuple set, with `root` rewritten to the cache path, and
(2) passed the existence check when it was requested; moreover (3) the two
output lists exactly partition the input list (lengths and names). -/
theorem docLoop_spec (existsFn : String → Bool) (ce : Bool) (rd : String)
    (t2 : List (String × Int × Int × Int × Int)) :
    ∀ (dl : List RFile) (noms : List (String × Int × Int × Int × Int)),
    List.Pairwise (fun a b => pyStrLe a.name b.name = true) dl →
    (dl.map (fun f => f.name)).Nodup →
    List.Pairwise (fun a b => pyStrLe a.1 b.1 = true) noms →
    (noms.map (fun t => t.1)).Nodup →
    (∀ d ∈ dl, fileTup d ∉ t2 → fileTup d ∈ noms) →
    (∀ t ∈ noms, t.1 ∈ dl.map (fun f => f.name)) →
    (∀ f ∈ (docLoop existsFn ce rd dl noms).2,
        ∃ d ∈ dl, f = { d with root := some rd } ∧ fileTup d ∈ t2)
    ∧ (ce = true → ∀ f ∈ (docLoop existsFn ce rd dl noms).2,
        existsFn (osPathJoin rd (stripLeadingSlash f.name)) = true)
    ∧ (docLoop existsFn ce rd dl noms).1.length
        + (docLoop existsFn ce rd dl noms).2.length = dl.length
    ∧ ((docLoop existsFn ce rd dl noms).1.map (fun f => f.name)
        ++ (docLoop existsFn ce rd dl noms).2.map (fun f => f.name)).Perm
          (dl.map (fun f => f.name)) := by
  intro dl
  induction dl with
  | nil =>
      intro noms _ _ _ _ _ _
      refine ⟨?_, ?_, ?_, ?_⟩ <;> simp [docLoop]
  | cons d rest ih =>
      intro noms hps hnd hpn hndn h4 h5
      rw [List.map_cons, List.nodup_cons] at hnd
      obtain ⟨hdnotin, hndrest⟩ := hnd
      rw [List.pairwise_cons] at hps
      obtain ⟨hdle, hpsrest⟩ := hps
      by_cases hmatch : ∃ nm noms2, noms = nm :: noms2 ∧ d.name = nm.1
      · -- the head matches the pointer: it goes back to the download list
        obtain ⟨nm, noms2, hnoms, heq⟩ := hmatch
        subst hnoms
        rw [List.map_cons, List.nodup_cons] at hndn
        obtain ⟨hnmnotin, hndn2⟩ := hndn
        rw [List.pairwise_cons] at hpn
        obtain ⟨hnmle, hpn2⟩ := hpn
        rcases hX : docLoop existsFn ce rd rest noms2 with ⟨dlr, cpr⟩
        have hred : docLoop existsFn ce rd (d :: rest) (nm :: noms2)
            = (d :: dlr, cpr) := by
          simp [docLoop, heq, hX]
        have h4r : ∀ e ∈ rest, fileTup e ∉ t2 → fileTup e ∈ noms2 := by
          intro e he hnot
          have hin := h4 e (List.mem_cons_of_mem d he) hnot
          rcases List.mem_cons.mp hin with hh | hh
          · exfalso
            apply hdnotin
            have hen : e.name = nm.1 := by rw [← hh]; rfl
            rw [← heq] at hen
            rw [← hen]
            exact List.mem_map_of_mem (fun f => f.name) he
          · exact hh
        have h5r : ∀ t ∈ noms2, t.1 ∈ rest.map (fun f => f.name) := by
          intro t ht
          have h51 := h5 t (List.mem_cons_of_mem nm ht)
          rw [List.map_cons, List.mem_cons] at h51
          rcases h51 with hh | hh
          · exfalso
            apply hnmnotin
            rw [heq] at hh
            rw [← hh]
            exact List.mem_map_of_mem (fun t => t.1) ht
          · exact hh
        have hr := ih noms2 hpsrest hndrest hpn2 hndn2 h4r h5r
        rw [hX] at hr
        rw [hred]
        refine ⟨?_, ?_, ?_, ?_⟩
        · intro f hf
          obtain ⟨e, he, hfe, ht⟩ := hr.1 f hf
          exact ⟨e, List.mem_cons_of_mem d he, hfe, ht⟩
        · intro hce f hf
          exact hr.2.1 hce f hf
        · have hlen : dlr.length + cpr.length = rest.length := hr.2.2.1
          show (d :: dlr).length + cpr.length = (d :: rest).length
          simp only [List.length_cons]
          omega
        · simp only [List.map_cons, List.cons_append]
          exact (hr.2.2.2).cons d.name
      · -- copy branch: noms is empty or the pointer name differs
        have hnored : ∀ nm noms2, noms = nm :: noms2 → ¬ d.name = nm.1 := by
          intro nm noms2 hh hc
          exact hmatch ⟨nm, noms2, hh, hc⟩
        have hdint2 : fileTup d ∈ t2 := by
          by_contra hnot
          have hdin := h4 d (List.mem_cons_self d rest) hnot
          cases hn : noms with
          | nil =>
              rw [hn] at hdin
              simp at hdin
          | cons nm noms2 =>
              rw [hn] at hdin
              have hne := hnored nm noms2 hn
              rcases List.mem_cons.mp hdin with hh | hh
              · apply hne
                rw [← hh]
                rfl
              · rw [hn] at hpn
                rw [List.pairwise_cons] at hpn
                have hle1 : pyStrLe nm.1 (fileTup d).1 = true := hpn.1 _ hh
                have hfd1 : (fileTup d).1 = d.name := rfl
                rw [hfd1] at hle1
                have hnm1 := h5 nm (by rw [hn]; exact List.mem_cons_self nm noms2)
                rw [List.map_cons, List.mem_cons] at hnm1
                rcases hnm1 with hh2 | hh2
                · exact hne hh2.symm
                · obtain ⟨x, hx, hxn⟩ := List.mem_map.mp hh2
                  have hlex : pyStrLe d.name x.name = true := hdle x hx
                  rw [hxn] at hlex
                  exact hne (pyStrLe_antisymm _ _ hlex hle1)
        have h4r : ∀ e ∈ rest, fileTup e ∉ t2 → fileTup e ∈ noms :=
          fun e he hnot => h4 e (List.mem_cons_of_mem d he) hnot
        have h5r : ∀ t ∈ noms, t.1 ∈ rest.map (fun f => f.name) := by
          intro t ht
          have h51 := h5 t ht
          rw [List.map_cons, List.mem_cons] at h51
          rcases h51 with hh | hh
          · exfalso
            cases hn : noms with
            | nil =>
                rw [hn] at ht
                simp at ht
            | cons nm noms2 =>
                have hne := hnored nm noms2 hn
                rw [hn] at ht
                rcases List.mem_cons.mp ht with h | h
                · apply hne
                  rw [h] at hh
                  exact hh.symm
                · rw [hn] at hpn
                  rw [List.pairwise_cons] at hpn
                  have hle1 : pyStrLe nm.1 t.1 = true := hpn.1 _ h
                  rw [hh] at hle1
                  have hnm1 := h5 nm (by rw [hn]; exact List.mem_cons_self nm noms2)
                  rw [List.map_cons, List.mem_cons] at hnm1
                  rcases hnm1 with hh2 | hh2
                  · exact hne hh2.symm
                  · obtain ⟨x, hx, hxn⟩ := List.mem_map.mp hh2
                    have hlex : pyStrLe d.name x.name = true := hdle x hx
                    rw [hxn] at hlex
                    exact hne (pyStrLe_antisymm _ _ hlex hle1)
          · exact hh
        have hr := ih noms hpsrest hndrest hpn hndn h4r h5r
        rcases hX : docLoop existsFn ce rd rest noms with ⟨dlr, cpr⟩
        rw [hX] at hr
        by_cases hex : (!ce || existsFn (osPathJoin rd (stripLeadingSlash d.name))) = true
        · have hredc : docLoop existsFn ce rd (d :: rest) noms
              = (dlr, { d with root := some rd } :: cpr) := by
            cases hn : noms with
            | nil =>
                rw [hn] at hX
                simp [docLoop, hX, hex]
            | cons nm noms2 =>
                have hne := hnored nm noms2 hn
                rw [hn] at hX
                simp [docLoop, hne, hX, hex]
          rw [hredc]
          refine ⟨?_, ?_, ?_, ?_⟩
          · intro f hf
            rcases List.mem_cons.mp hf with hh | hh
            · exact ⟨d, List.mem_cons_self d rest, hh, hdint2⟩
            · obtain ⟨e, he, hfe, ht⟩ := hr.1 f hh
              exact ⟨e, List.mem_cons_of_mem d he, hfe, ht⟩
          · intro hce f hf
            rcases List.mem_cons.mp hf with hh | hh
            · rw [hce] at hex
              simp only [Bool.not_true, Bool.false_or] at hex
              rw [hh]
              exact hex
            · exact hr.2.1 hce f hh
          · have hlen : dlr.length + cpr.length = rest.length := hr.2.2.1
            show dlr.length + ({ d with root := some rd } :: cpr).length
              = (d :: rest).length
            simp only [List.length_cons]
            omega
          · simp only [List.map_cons]
            have hmid : (dlr.map (fun f => f.name)
                ++ d.name :: cpr.map (fun f => f.name)).Perm
                  (d.name :: (dlr.map (fun f => f.name)
                    ++ cpr.map (fun f => f.name))) :=
              List.perm_middle
            exact hmid.trans ((hr.2.2.2).cons d.name)
        · have hex2 : (!ce || existsFn (osPathJoin rd (stripLeadingSlash d.name)))
              = false := by
            simpa using hex
          have hredc : docLoop existsFn ce rd (d :: rest) noms
              = (d :: dlr, cpr) := by
            cases hn : noms with
            | nil =>
                rw [hn] at hX
                simp [docLoop, hX, hex2]
            | cons nm noms2 =>
                have hne := hnored nm noms2 hn
                rw [hn] at hX
                simp [docLoop, hne, hX, hex2]
          rw [hredc]
          refine ⟨?_, ?_, ?_, ?_⟩
          · intro f hf
            obtain ⟨e, he, hfe, ht⟩ := hr.1 f hf
            exact ⟨e, List.mem_cons_of_mem d he, hfe, ht⟩
          · intro hce f hf
            exact hr.2.1 hce f hf
          · have hlen : dlr.length + cpr.length = rest.length := hr.2.2.1
            show (d :: dlr).length + cpr.length = (d :: rest).length
            simp only [List.length_cons]
            omega
          · simp only [List.map_cons, List.cons_append]
            exact (hr.2.2.2).cons d.name

theorem append_file_name (sp : Option (List (String × String))) (x : RFile) :
    (_append_file_to_download sp x).name = squeezeSlashes x.name := by
  unfold _append_file_to_download
  cases hs : x.save_as <;>
    by_cases hp : (paramTruthy sp && !paramTruthy x.param) = true <;>
      simp [hs, hp]

/-- C6 counterexample.  The claim fails as stated when two entries of
`files_to_download` share a name: with the remote list holding `a` twice
(size 10 and size 20) and the local inventory holding `a` at size 10, the
merge pointer consumes the size-10 entry for the single new-or-modified
tuple, and the size-20 entry — whose only local counterpart differs in size —
is placed into `files_to_copy`. -/
theorem claim_C6_counterexample :
    ({ name := "a", year := 2013, month := 11, day := 10, size := 20,
        root := some "/cache" } : RFile)
      ∈ (download_or_copy none (fun _ => false)
          [{ name := "a", year := 2013, month := 11, day := 10, size := 10 }]
          "/cache" false
          [{ name := "a", year := 2013, month := 11, day := 10, size := 10 },
           { name := "a", year := 2013, month := 11, day := 10, size := 20 }]).2
    ∧ ∀ a ∈ ([{ name := "a", year := 2013, month := 11, day := 10, size := 10 }] : List RFile), fileTup a ≠ ("a", 2013, 11, 10, 20) := by
  constructor
  · decide
  · decide

/-- C6 (amended: the names in `files_to_download` are pairwise distinct —
the counterexample above shows the claim fails without this).
`download_or_copy` never places into `files_to_copy` an entry without a
local counterpart agreeing on the whole (name, year, month, day, size)
tuple; copied entries get `root` set to the local cache path; with
`check_exists` true only locally existing files are copied; and the two
output lists partition the input (no entry is lost): every input file
survives, by (possibly slash-collapsed) name, in `files_to_download` or in
`files_to_copy`. -/
theorem claim_C6 (selfParam : Option (List (String × String)))
    (existsFn : String → Bool) (avail : List RFile) (root_dir : String)
    (check_exists : Bool) (ftd : List RFile)
    (hnd : (ftd.map (fun f => f.name)).Nodup) :
    (∀ f ∈ (download_or_copy selfParam existsFn avail root_dir check_exists ftd).2,
        (∃ a ∈ avail, fileTup a = fileTup f) ∧ f.root = some root_dir)
    ∧ (check_exists = true →
        ∀ f ∈ (download_or_copy selfParam existsFn avail root_dir check_exists ftd).2,
          existsFn (osPathJoin root_dir (stripLeadingSlash f.name)) = true)
    ∧ (download_or_copy selfParam existsFn avail root_dir check_exists ftd).1.length
        + (download_or_copy selfParam existsFn avail root_dir check_exists ftd).2.length
        = ftd.length
    ∧ (∀ g ∈ ftd,
        (∃ f ∈ (download_or_copy selfParam existsFn avail root_dir check_exists ftd).1,
          f.name = squeezeSlashes g.name ∨ f.name = g.name)
        ∨ (∃ f ∈ (download_or_copy selfParam existsFn avail root_dir check_exists ftd).2,
          f.name = g.name)) := by
  by_cases hav : avail.isEmpty
  · have hred : download_or_copy selfParam existsFn avail root_dir check_exists ftd
        = (ftd, []) := by
      simp [download_or_copy, hav]
    rw [hred]
    refine ⟨by simp, by simp, by simp, ?_⟩
    intro g hg
    exact Or.inl ⟨g, hg, Or.inr rfl⟩
  · -- main branch
    set dl := pySort nameLeB ftd with hdl
    set t1 := (dl.map fileTup).dedup with ht1
    set t2 := ((pySort nameLeB avail).map fileTup).dedup with ht2
    set noms := pySort tupLeB (t1.filter (fun t => !(t2.contains t))) with hnoms
    have hred : download_or_copy selfParam existsFn avail root_dir check_exists ftd
        = (set_files_to_download selfParam
            (docLoop existsFn check_exists root_dir dl noms).1,
          (docLoop existsFn check_exists root_dir dl noms).2) := by
      rw [download_or_copy, if_neg (by simp [hav])]
    -- preconditions of the loop lemma
    have hdlperm : dl.Perm ftd := pySort_perm nameLeB ftd
    have hps : List.Pairwise
        (fun a b : RFile => pyStrLe a.name b.name = true) dl :=
      pySort_sorted nameLeB nameLeB_trans nameLeB_total ftd
    have hndl : (dl.map (fun f => f.name)).Nodup :=
      ((hdlperm.map (fun f => f.name)).nodup_iff).mpr hnd
    have hmapname : t1.map (fun t => t.1) |>.Sublist (dl.map (fun f => f.name)) := by
      have h1 : t1.Sublist (dl.map fileTup) := List.dedup_sublist _
      have h2 := h1.map (fun t => t.1)
      rw [List.map_map] at h2
      have h3 : ((fun t : String × Int × Int × Int × Int => t.1) ∘ fileTup)
          = (fun f : RFile => f.name) := rfl
      rw [h3] at h2
      exact h2
    have hpn : List.Pairwise
        (fun a b : String × Int × Int × Int × Int => pyStrLe a.1 b.1 = true)
          noms :=
      pySort_sorted tupLeB tupLeB_trans tupLeB_total
        (t1.filter (fun t => !(t2.contains t)))
    have hnomsperm : noms.Perm (t1.filter (fun t => !(t2.contains t))) :=
      pySort_perm tupLeB _
    have hndt1 : (t1.map (fun t => t.1)).Nodup :=
      List.Nodup.sublist hmapname hndl
    have hndn : (noms.map (fun t => t.1)).Nodup := by
      apply ((hnomsperm.map (fun t => t.1)).nodup_iff).mpr
      exact List.Nodup.sublist
        ((List.filter_sublist t1).map (fun t => t.1)) hndt1
    have h4 : ∀ d ∈ dl, fileTup d ∉ t2 → fileTup d ∈ noms := by
      intro d hd hnot
      apply (hnomsperm.mem_iff).mpr
      apply List.mem_filter.mpr
      refine ⟨List.mem_dedup.mpr (List.mem_map_of_mem fileTup hd), ?_⟩
      simp only [Bool.not_eq_true']
      simpa using hnot
    have h5 : ∀ t ∈ noms, t.1 ∈ dl.map (fun f => f.name) := by
      intro t ht
      have h1 := List.mem_filter.mp ((hnomsperm.mem_iff).mp ht)
      have h2 := List.mem_dedup.mp h1.1
      obtain ⟨x, hx, hxe⟩ := List.mem_map.mp h2
      have : t.1 = x.name := by rw [← hxe]; rfl
      rw [this]
      exact List.mem_map_of_mem (fun f => f.name) hx
    have hloop := docLoop_spec existsFn check_exists root_dir t2 dl noms
      hps hndl hpn hndn h4 h5
    rw [hred]
    refine ⟨?_, ?_, ?_, ?_⟩
    · intro f hf
      obtain ⟨d, hd, hfd, ht⟩ := hloop.1 f hf
      constructor
      · have h2 := List.mem_dedup.mp ht
        obtain ⟨a, ha, hae⟩ := List.mem_map.mp h2
        refine ⟨a, ((pySort_perm nameLeB avail).mem_iff).mp ha, ?_⟩
        have hft : fileTup f = fileTup d := by
          rw [hfd]
          rfl
        rw [hft]
        exact hae
      · rw [hfd]
    · intro hce f hf
      exact hloop.2.1 hce f hf
    · have hlen := hloop.2.2.1
      have hdlen : dl.length = ftd.length := hdlperm.length_eq
      simp only [set_files_to_download, List.length_map]
      omega
    · intro g hg
      have hgname : g.name ∈ dl.map (fun f => f.name) :=
        (List.mem_map_of_mem (fun f => f.name)
          ((hdlperm.mem_iff).mpr hg))
      have hsplit := (hloop.2.2.2.mem_iff).mpr hgname
      rcases List.mem_append.mp hsplit with hh | hh
      · obtain ⟨x, hx, hxe⟩ := List.mem_map.mp hh
        left
        refine ⟨_append_file_to_download selfParam x, ?_, ?_⟩
        · exact List.mem_map_of_mem _ hx
        · left
          rw [append_file_name]
          rw [show x.name = g.name from hxe]
      · obtain ⟨x, hx, hxe⟩ := List.mem_map.mp hh
        right
        exact ⟨x, hx, hxe⟩

theorem claim_C6_witness :
    (∀ f ∈ (download_or_copy none (fun _ => true)
        [{ name := "/a", size := 10 }, { name := "/b", size := 20 },
         { name := "/c", size := 10 }]
        "/cache" false
        [{ name := "/a", size := 10 }, { name := "/b", size := 10 },
         { name := "/c", size := 10 }, { name := "/d", size := 10 }]).2,
      (∃ a ∈ [({ name := "/a", size := 10 } : RFile),
          { name := "/b", size := 20 }, { name := "/c", size := 10 }],
        fileTup a = fileTup f) ∧ f.root = some "/cache")
    ∧ (download_or_copy none (fun _ => true)
        [{ name := "/a", size := 10 }, { name := "/b", size := 20 },
         { name := "/c", size := 10 }]
        "/cache" false
        [{ name := "/a", size := 10 }, { name := "/b", size := 10 },
         { name := "/c", size := 10 }, { name := "/d", size := 10 }]).1.length
      + (download_or_copy none (fun _ => true)
        [{ name := "/a", size := 10 }, { name := "/b", size := 20 },
         { name := "/c", size := 10 }]
        "/cache" false
        [{ name := "/a", size := 10 }, { name := "/b", size := 10 },
         { name := "/c", size := 10 }, { name := "/d", size := 10 }]).2.length
      = 4 := by
  have h := claim_C6 none (fun _ => true)
    [{ name := "/a", size := 10 }, { name := "/b", size := 20 },
     { name := "/c", size := 10 }]
    "/cache" false
    [{ name := "/a", size := 10 }, { name := "/b", size := 10 },
     { name := "/c", size := 10 }, { name := "/d", size := 10 }]
    (by decide)
  exact ⟨h.1, h.2.2.1⟩

theorem sqAux_sqAux : ∀ l : List Char,
    sqAux false (sqAux false l) = sqAux false l
    ∧ sqAux true (sqAux true l) = sqAux true l := by
  intro l
  induction l with
  | nil => exact ⟨rfl, rfl⟩
  | cons c rest ih =>
      constructor
      · by_cases hc : c = '/'
        · have e1 : sqAux false (c :: rest) = c :: sqAux true rest := by
            simp [sqAux, hc]
          have e2 : sqAux false (c :: sqAux true rest)
              = c :: sqAux true (sqAux true rest) := by
            simp [sqAux, hc]
          rw [e1, e2, ih.2]
        · have e1 : sqAux false (c :: rest) = c :: sqAux false rest := by
            simp [sqAux, hc]
          have e2 : sqAux false (c :: sqAux false rest)
              = c :: sqAux false (sqAux false rest) := by
            simp [sqAux, hc]
          rw [e1, e2, ih.1]
      · by_cases hc : c = '/'
        · have e1 : sqAux true (c :: rest) = sqAux true rest := by
            simp [sqAux, hc]
          rw [e1, ih.2]
        · have e1 : sqAux true (c :: rest) = c :: sqAux false rest := by
            simp [sqAux, hc]
          have e2 : sqAux true (c :: sqAux false rest)
              = c :: sqAux false (sqAux false rest) := by
            simp [sqAux, hc]
          rw [e1, e2, ih.1]

theorem squeeze_idem (s : String) :
    squeezeSlashes (squeezeSlashes s) = squeezeSlashes s :=
  congrArg String.mk ((sqAux_sqAux s.data).1)

/-- `_append_file_to_download` is idempotent: a dict already normalised once
is not changed by a second normalisation. -/
theorem append_idem (sp : Option (List (String × String))) (f : RFile) :
    _append_file_to_download sp (_append_file_to_download sp f)
      = _append_file_to_download sp f := by
  cases hs : f.save_as <;> cases hq : paramTruthy f.param <;>
    cases hr : paramTruthy sp <;>
      simp [_append_file_to_download, hs, hq, hr, squeeze_idem]

theorem forall₂_mem_left {R : RFile → RFile → Prop} :
    ∀ {l' l : List RFile}, List.Forall₂ R l' l → ∀ g ∈ l', ∃ f ∈ l, R g f := by
  intro l' l h
  induction h with
  | nil => intro g hg; cases hg
  | cons hr _ ih =>
      intro g hg
      rcases List.mem_cons.mp hg with hh | hh
      · subst hh
        exact ⟨_, List.mem_cons_self _ _, hr⟩
      · obtain ⟨f, hf, hrf⟩ := ih g hh
        exact ⟨f, List.mem_cons_of_mem _ hf, hrf⟩

theorem matchEquiv_refl (sp : Option (List (String × String))) (f : RFile) :
    matchEquiv sp f f :=
  ⟨rfl, rfl⟩

theorem forall₂_matchEquiv_refl (sp : Option (List (String × String))) :
    ∀ l : List RFile, List.Forall₂ (matchEquiv sp) l l := by
  intro l
  induction l with
  | nil => exact List.Forall₂.nil
  | cons f t ih => exact List.Forall₂.cons (matchEquiv_refl sp f) ih

theorem forall₂_matchEquiv_trans (sp : Option (List (String × String))) :
    ∀ {l1 l2 l3 : List RFile},
    List.Forall₂ (matchEquiv sp) l1 l2 → List.Forall₂ (matchEquiv sp) l2 l3 →
    List.Forall₂ (matchEquiv sp) l1 l3 := by
  intro l1 l2 l3 h12
  induction h12 generalizing l3 with
  | nil =>
      intro h23
      cases h23
      exact List.Forall₂.nil
  | cons hr h12' ih =>
      intro h23
      cases h23 with
      | cons hr2 h23' =>
          exact List.Forall₂.cons
            ⟨hr.1.trans hr2.1, hr.2.trans hr2.2⟩ (ih h23')

theorem forall₂_matchEquiv_append (sp : Option (List (String × String))) :
    ∀ {l1 l2 u1 u2 : List RFile},
    List.Forall₂ (matchEquiv sp) l1 l2 → List.Forall₂ (matchEquiv sp) u1 u2 →
    List.Forall₂ (matchEquiv sp) (l1 ++ u1) (l2 ++ u2) := by
  intro l1 l2 u1 u2 h12
  induction h12 with
  | nil => intro hu; exact hu
  | cons hr _ ih => intro hu; exact List.Forall₂.cons hr (ih hu)

theorem starStep_empty_pfx (sp : Option (List (String × String)))
    (acc : List RFile × List RFile) (f : RFile) :
    starStep sp "" acc f
      = (acc.1 ++ [_append_file_to_download sp f],
         acc.2 ++ [_append_file_to_download sp f]) := rfl

/-- Congruence of the `'**_/_*'` fold: entrywise-equivalent inputs produce
the same `files_to_download` and entrywise-equivalent `file_list` output. -/
theorem starFold_congr (sp : Option (List (String × String))) :
    ∀ {l' l : List RFile}, List.Forall₂ (matchEquiv sp) l' l →
    ∀ {a' a : List RFile} (b : List RFile),
      List.Forall₂ (matchEquiv sp) a' a →
    (List.foldl (starStep sp "") (a', b) l').2
        = (List.foldl (starStep sp "") (a, b) l).2
    ∧ List.Forall₂ (matchEquiv sp)
        (List.foldl (starStep sp "") (a', b) l').1
        (List.foldl (starStep sp "") (a, b) l).1 := by
  intro l' l h
  induction h with
  | nil =>
      intro a' a b hacc
      exact ⟨rfl, hacc⟩
  | cons hfg htail ih =>
      intro a' a b hacc
      simp only [List.foldl_cons, starStep_empty_pfx]
      rw [hfg.2]
      exact ih _ (forall₂_matchEquiv_append sp hacc
        (List.Forall₂.cons (matchEquiv_refl sp _) List.Forall₂.nil))

/-- A single run of the `'**_/_*'` fold on a `file_list` whose names contain
no repeated slash produces a `file_list` equivalent to the input. -/
theorem starFold_out (sp : Option (List (String × String))) :
    ∀ (l : List RFile), (∀ f ∈ l, squeezeSlashes f.name = f.name) →
    ∀ (a b : List RFile),
    ∃ out, (List.foldl (starStep sp "") (a, b) l).1 = a ++ out
      ∧ List.Forall₂ (matchEquiv sp) out l := by
  intro l
  induction l with
  | nil =>
      intro _ a b
      exact ⟨[], by simp, List.Forall₂.nil⟩
  | cons f t ih =>
      intro hfree a b
      simp only [List.foldl_cons, starStep_empty_pfx]
      obtain ⟨out, ho, hrel⟩ :=
        ih (fun g hg => hfree g (List.mem_cons_of_mem _ hg))
          (a ++ [_append_file_to_download sp f])
          (b ++ [_append_file_to_download sp f])
      refine ⟨_append_file_to_download sp f :: out, ?_, ?_⟩
      · rw [ho]
        simp
      · refine List.Forall₂.cons ⟨?_, append_idem sp f⟩ hrel
        rw [append_file_name]
        exact hfree f (List.mem_cons_self _ _)

/-- Congruence of the single-segment fold. -/
theorem matchFold_congr (rm : String → String → Bool)
    (sp : Option (List (String × String))) (pattern : String) :
    ∀ {l' l : List RFile}, List.Forall₂ (matchEquiv sp) l' l →
    ∀ {a' a : List RFile} (b : List RFile),
      List.Forall₂ (matchEquiv sp) a' a →
    (List.foldl (matchFoldStep rm sp pattern "") (a', b) l').2
        = (List.foldl (matchFoldStep rm sp pattern "") (a, b) l).2
    ∧ List.Forall₂ (matchEquiv sp)
        (List.foldl (matchFoldStep rm sp pattern "") (a', b) l').1
        (List.foldl (matchFoldStep rm sp pattern "") (a, b) l).1 := by
  intro l' l h
  induction h with
  | nil =>
      intro a' a b hacc
      exact ⟨rfl, hacc⟩
  | @cons f g t' t hfg htail ih =>
      intro a' a b hacc
      simp only [List.foldl_cons, matchFoldStep, hfg.1]
      by_cases hm : rm pattern g.name = true
      · rw [if_pos hm, if_pos hm]
        simp only [starStep_empty_pfx]
        rw [hfg.2]
        exact ih _ (forall₂_matchEquiv_append sp hacc
          (List.Forall₂.cons (matchEquiv_refl sp _) List.Forall₂.nil))
      · rw [if_neg hm, if_neg hm]
        exact ih _ (forall₂_matchEquiv_append sp hacc
          (List.Forall₂.cons hfg List.Forall₂.nil))

/-- A single run of the single-segment fold on a `file_list` whose names
contain no repeated slash produces a `file_list` equivalent to the input. -/
theorem matchFold_out (rm : String → String → Bool)
    (sp : Option (List (String × String))) (pattern : String) :
    ∀ (l : List RFile), (∀ f ∈ l, squeezeSlashes f.name = f.name) →
    ∀ (a b : List RFile),
    ∃ out, (List.foldl (matchFoldStep rm sp pattern "") (a, b) l).1 = a ++ out
      ∧ List.Forall₂ (matchEquiv sp) out l := by
  intro l
  induction l with
  | nil =>
      intro _ a b
      exact ⟨[], by simp, List.Forall₂.nil⟩
  | cons f t ih =>
      intro hfree a b
      simp only [List.foldl_cons, matchFoldStep]
      by_cases hm : rm pattern f.name = true
      · rw [if_pos hm]
        simp only [starStep_empty_pfx]
        obtain ⟨out, ho, hrel⟩ :=
          ih (fun g hg => hfree g (List.mem_cons_of_mem _ hg))
            (a ++ [_append_file_to_download sp f])
            (b ++ [_append_file_to_download sp f])
        refine ⟨_append_file_to_download sp f :: out, ?_, ?_⟩
        · rw [ho]
          simp
        · refine List.Forall₂.cons ⟨?_, append_idem sp f⟩ hrel
          rw [append_file_name]
          exact hfree f (List.mem_cons_self _ _)
      · rw [if_neg hm]
        obtain ⟨out, ho, hrel⟩ :=
          ih (fun g hg => hfree g (List.mem_cons_of_mem _ hg)) (a ++ [f]) b
        refine ⟨f :: out, ?_, ?_⟩
        · rw [ho]
          simp
        · exact List.Forall₂.cons (matchEquiv_refl sp f) hrel

/-- Congruence of one pattern step at the top level (`prefix` empty):
entrywise-equivalent `file_list` inputs give the same `files_to_download`,
the same early flag, and entrywise-equivalent `file_list` outputs. -/
theorem matchStep_congr (listo : String → List RFile × List RDir)
    (rm : String → String → Bool) (sp : Option (List (String × String))) :
    ∀ (fuel : Nat) (pattern : String) (dirs : List RDir) (ftd : List RFile)
      {fl' fl : List RFile}, List.Forall₂ (matchEquiv sp) fl' fl →
    ∀ {flo ftdo : List RFile} {e : Bool},
      matchStep listo rm sp fuel pattern fl dirs "" ftd = some (flo, ftdo, e) →
    ∃ flo', matchStep listo rm sp fuel pattern fl' dirs "" ftd
        = some (flo', ftdo, e)
      ∧ List.Forall₂ (matchEquiv sp) flo' flo := by
  intro fuel pattern dirs ftd fl' fl hrel flo ftdo e h
  cases fuel with
  | zero => exact Option.noConfusion h
  | succ n =>
      by_cases hlen : (pySplitSlash pattern).length > 1
      · by_cases hpat : pattern = "**/*"
        · rcases hFold : List.foldl (starStep sp "") ([], ftd) fl with ⟨c, d⟩
          rcases hFold' : List.foldl (starStep sp "") ([], ftd) fl' with ⟨c', d'⟩
          have hcong := starFold_congr sp hrel ftd List.Forall₂.nil
          rw [hFold, hFold'] at hcong
          simp only [matchStep, if_pos hlen, if_pos hpat, hFold, hFold'] at h ⊢
          simp only [Option.some.injEq, Prod.mk.injEq] at h
          obtain ⟨h1, h2, h3⟩ := h
          refine ⟨c', ?_, ?_⟩
          · have hd2 : d' = d := hcong.1
            rw [hd2, h2, h3]
          · rw [← h1]
            exact hcong.2
        · simp only [matchStep, if_pos hlen, if_neg hpat] at h ⊢
          split at h
          · exact Option.noConfusion h
          · rename_i ftd2 hd
            simp only [Option.some.injEq, Prod.mk.injEq] at h
            obtain ⟨h1, h2, h3⟩ := h
            refine ⟨fl', ?_, ?_⟩
            · rw [← h2, ← h3]
            · rw [← h1]
              exact hrel
      · rcases hFold : List.foldl (matchFoldStep rm sp pattern "") ([], ftd) fl
          with ⟨c, d⟩
        rcases hFold' : List.foldl (matchFoldStep rm sp pattern "") ([], ftd) fl'
          with ⟨c', d'⟩
        have hcong := matchFold_congr rm sp pattern hrel ftd List.Forall₂.nil
        rw [hFold, hFold'] at hcong
        simp only [matchStep, if_neg hlen, hFold, hFold'] at h ⊢
        simp only [Option.some.injEq, Prod.mk.injEq] at h
        obtain ⟨h1, h2, h3⟩ := h
        refine ⟨c', ?_, ?_⟩
        · have hd2 : d' = d := hcong.1
          rw [hd2, h2, h3]
        · rw [← h1]
          exact hcong.2

/-- One top-level pattern step maps a `file_list` with slash-collapse-fixed
names to an entrywise-equivalent `file_list`. -/
theorem matchStep_rel (listo : String → List RFile × List RDir)
    (rm : String → String → Bool) (sp : Option (List (String × String))) :
    ∀ (fuel : Nat) (pattern : String) (dirs : List RDir) (ftd : List RFile)
      {fl : List RFile}, (∀ f ∈ fl, squeezeSlashes f.name = f.name) →
    ∀ {flo ftdo : List RFile} {e : Bool},
      matchStep listo rm sp fuel pattern fl dirs "" ftd = some (flo, ftdo, e) →
    List.Forall₂ (matchEquiv sp) flo fl := by
  intro fuel pattern dirs ftd fl hfree flo ftdo e h
  cases fuel with
  | zero => exact Option.noConfusion h
  | succ n =>
      by_cases hlen : (pySplitSlash pattern).length > 1
      · by_cases hpat : pattern = "**/*"
        · rcases hFold : List.foldl (starStep sp "") ([], ftd) fl with ⟨c, d⟩
          obtain ⟨out, ho, hrel⟩ := starFold_out sp fl hfree [] ftd
          rw [hFold] at ho
          simp only [matchStep, if_pos hlen, if_pos hpat, hFold] at h
          simp only [Option.some.injEq, Prod.mk.injEq] at h
          obtain ⟨h1, h2, h3⟩ := h
          rw [← h1]
          have hc : c = out := by simpa using ho
          rw [hc]
          exact hrel
        · simp only [matchStep, if_pos hlen, if_neg hpat] at h
          split at h
          · exact Option.noConfusion h
          · rename_i ftd2 hd
            simp only [Option.some.injEq, Prod.mk.injEq] at h
            obtain ⟨h1, h2, h3⟩ := h
            rw [← h1]
            exact forall₂_matchEquiv_refl sp fl
      · rcases hFold : List.foldl (matchFoldStep rm sp pattern "") ([], ftd) fl
          with ⟨c, d⟩
        obtain ⟨out, ho, hrel⟩ := matchFold_out rm sp pattern fl hfree [] ftd
        rw [hFold] at ho
        simp only [matchStep, if_neg hlen, hFold] at h
        simp only [Option.some.injEq, Prod.mk.injEq] at h
        obtain ⟨h1, h2, h3⟩ := h
        rw [← h1]
        have hc : c = out := by simpa using ho
        rw [hc]
        exact hrel

theorem squeeze_fixed_of_forall₂ (sp : Option (List (String × String)))
    {l' l : List RFile} (h : List.Forall₂ (matchEquiv sp) l' l)
    (hfree : ∀ f ∈ l, squeezeSlashes f.name = f.name) :
    ∀ g ∈ l', squeezeSlashes g.name = g.name := by
  intro g hg
  obtain ⟨f, hf, hr⟩ := forall₂_mem_left h g hg
  rw [hr.1]
  exact hfree f hf

/-- The pattern loop maps a `file_list` with slash-collapse-fixed names to
an entrywise-equivalent `file_list`. -/
theorem matchPats_rel (listo : String → List RFile × List RDir)
    (rm : String → String → Bool) (sp : Option (List (String × String)))
    (fuel : Nat) :
    ∀ (ps : List String) (dirs : List RDir) {fl ftd : List RFile},
    (∀ f ∈ fl, squeezeSlashes f.name = f.name) →
    ∀ {flo ftdo : List RFile} {e : Bool},
      matchPats listo rm sp fuel ps fl dirs ftd = some (flo, ftdo, e) →
    List.Forall₂ (matchEquiv sp) flo fl := by
  intro ps
  induction ps with
  | nil =>
      intro dirs fl ftd hfree flo ftdo e h
      simp only [matchPats, Option.some.injEq, Prod.mk.injEq] at h
      obtain ⟨h1, h2, h3⟩ := h
      rw [← h1]
      exact forall₂_matchEquiv_refl sp fl
  | cons p ps ih =>
      intro dirs fl ftd hfree flo ftdo e h
      simp only [matchPats] at h
      split at h
      · exact Option.noConfusion h
      · rename_i fl2 ftd2 early hstep
        have hrel2 : List.Forall₂ (matchEquiv sp) fl2 fl :=
          matchStep_rel listo rm sp fuel p dirs ftd hfree hstep
        cases early with
        | true =>
            rw [if_pos rfl] at h
            simp only [Option.some.injEq, Prod.mk.injEq] at h
            obtain ⟨h1, h2, h3⟩ := h
            rw [← h1]
            exact hrel2
        | false =>
            rw [if_neg (by decide : ¬(false = true))] at h
            have hfree2 := squeeze_fixed_of_forall₂ sp hrel2 hfree
            exact forall₂_matchEquiv_trans sp (ih dirs hfree2 h) hrel2

/-- Congruence of the pattern loop: entrywise-equivalent `file_list` inputs
give the same `files_to_download`, the same early flag, and
entrywise-equivalent `file_list` outputs. -/
theorem matchPats_congr (listo : String → List RFile × List RDir)
    (rm : String → String → Bool) (sp : Option (List (String × String)))
    (fuel : Nat) :
    ∀ (ps : List String) (dirs : List RDir) {fl' fl ftd : List RFile},
    List.Forall₂ (matchEquiv sp) fl' fl →
    ∀ {flo ftdo : List RFile} {e : Bool},
      matchPats listo rm sp fuel ps fl dirs ftd = some (flo, ftdo, e) →
    ∃ flo', matchPats listo rm sp fuel ps fl' dirs ftd = some (flo', ftdo, e)
      ∧ List.Forall₂ (matchEquiv sp) flo' flo := by
  intro ps
  induction ps with
  | nil =>
      intro dirs fl' fl ftd hrel flo ftdo e h
      simp only [matchPats, Option.some.injEq, Prod.mk.injEq] at h
      obtain ⟨h1, h2, h3⟩ := h
      refine ⟨fl', ?_, ?_⟩
      · simp only [matchPats]
        rw [← h2, ← h3]
      · rw [← h1]
        exact hrel
  | cons p ps ih =>
      intro dirs fl' fl ftd hrel flo ftdo e h
      simp only [matchPats] at h
      split at h
      · exact Option.noConfusion h
      · rename_i fl2 ftd2 early hstep
        obtain ⟨fl2', hstep', hrel2⟩ :=
          matchStep_congr listo rm sp fuel p dirs ftd hrel hstep
        cases early with
        | true =>
            rw [if_pos rfl] at h
            simp only [Option.some.injEq, Prod.mk.injEq] at h
            obtain ⟨h1, h2, h3⟩ := h
            refine ⟨fl2', ?_, ?_⟩
            · simp [matchPats, hstep']
              rw [← h2, ← h3]
              exact ⟨rfl, rfl⟩
            · rw [← h1]
              exact hrel2
        | false =>
            rw [if_neg (by decide : ¬(false = true))] at h
            obtain ⟨flo', hrec, hrel3⟩ := ih dirs hrel2 h
            refine ⟨flo', ?_, hrel3⟩
            simp only [matchPats, hstep']
            rw [if_neg (by decide : ¬(false = true))]
            exact hrec

/-- C7 counterexample: `match` is not idempotent in general.  The dict named
`a//b` is renamed in place to `a/b` by the `//`-collapse of
`_append_file_to_download` during the first call, so the second call (whose
regular expression `a..b` needs four characters) matches nothing: its
`files_to_download` is empty — not the one-element list of the single call —
and it raises `'no file found matching expressions'`. -/
theorem claim_C7_counterexample :
    interface_match (fun _ => ([], [])) re_match_dot none 2 ["a..b"]
        [{ name := "a//b" }] []
      = some { file_list := [{ name := "a/b", save_as := some "a//b" }],
               files_to_download := [{ name := "a/b", save_as := some "a//b" }],
               raised := false }
    ∧ interface_match (fun _ => ([], [])) re_match_dot none 2 ["a..b"]
        [{ name := "a/b", save_as := some "a//b" }] []
      = some { file_list := [{ name := "a/b", save_as := some "a//b" }],
               files_to_download := [],
               raised := true } :=
  ⟨by decide, by decide⟩

/-- C7 (corrected): a non-submatch `match` call resets `files_to_download`
and is idempotent at the outermost level — the second call returns the same
`files_to_download` and the same raised flag — provided no file name in the
input `file_list` contains consecutive slashes (so the in-place `//`-collapse
of `_append_file_to_download` does not rename the dicts the patterns are
re-tested against; `claim_C7_counterexample` shows the claim fails without
this proviso). -/
theorem claim_C7 (listo : String → List RFile × List RDir)
    (rm : String → String → Bool) (sp : Option (List (String × String)))
    (fuel : Nat) (patterns : List String) (file_list : List RFile)
    (dir_list : List RDir) (r : MatchResult)
    (hfree : ∀ f ∈ file_list, squeezeSlashes f.name = f.name)
    (h1 : interface_match listo rm sp fuel patterns file_list dir_list
      = some r) :
    ∃ r2, interface_match listo rm sp fuel patterns r.file_list dir_list
        = some r2
      ∧ r2.files_to_download = r.files_to_download
      ∧ r2.raised = r.raised := by
  unfold interface_match at h1
  split at h1
  · exact Option.noConfusion h1
  · rename_i flp ftdp early hp
    have hrel : List.Forall₂ (matchEquiv sp) flp file_list :=
      matchPats_rel listo rm sp fuel patterns dir_list hfree hp
    obtain ⟨flo', hp', hrel'⟩ :=
      matchPats_congr listo rm sp fuel patterns dir_list hrel hp
    cases early with
    | true =>
        rw [if_pos rfl] at h1
        simp only [Option.some.injEq] at h1
        subst h1
        refine ⟨⟨flo', ftdp, false⟩, ?_, rfl, rfl⟩
        show interface_match listo rm sp fuel patterns flp dir_list
          = some ⟨flo', ftdp, false⟩
        simp [interface_match, hp']
    | false =>
        rw [if_neg (by decide : ¬(false = true))] at h1
        by_cases hz : ftdp.length = 0
        · rw [if_pos hz] at h1
          simp only [Option.some.injEq] at h1
          subst h1
          refine ⟨⟨flo', ftdp, true⟩, ?_, rfl, rfl⟩
          show interface_match listo rm sp fuel patterns flp dir_list
            = some ⟨flo', ftdp, true⟩
          simp [interface_match, hp', hz]
        · rw [if_neg hz] at h1
          simp only [Option.some.injEq] at h1
          subst h1
          refine ⟨⟨flo', ftdp, false⟩, ?_, rfl, rfl⟩
          show interface_match listo rm sp fuel patterns flp dir_list
            = some ⟨flo', ftdp, false⟩
          simp [interface_match, hp', hz]

/-- Witness for C7: the pattern `a.b` against the clean name `a/b`; the
second call reproduces the single call's `files_to_download` and flag. -/
theorem claim_C7_witness :
    (∀ f ∈ [({ name := "a/b" } : RFile)], squeezeSlashes f.name = f.name)
    ∧ ∃ r2, interface_match (fun _ => ([], [])) re_match_dot none 2 ["a.b"]
          ({ file_list := [{ name := "a/b", save_as := some "a/b" }],
             files_to_download := [{ name := "a/b", save_as := some "a/b" }],
             raised := false } : MatchResult).file_list []
        = some r2
      ∧ r2.files_to_download = [{ name := "a/b", save_as := some "a/b" }]
      ∧ r2.raised = false :=
  ⟨by decide,
    claim_C7 (fun _ => ([], [])) re_match_dot none 2 ["a.b"]
      [{ name := "a/b" }] []
      { file_list := [{ name := "a/b", save_as := some "a/b" }],
        files_to_download := [{ name := "a/b", save_as := some "a/b" }],
        raised := false }
      (by decide) (by decide)⟩
